import Mathlib

/-!
Verification development for `dijkstra1.py`: a Tailscale latency analyser whose
core consists of a graph builder (`get_tailscale_network`), Dijkstra's
single-source shortest-path algorithm with a lazy-deletion priority queue
(`dijkstra`), and backward path reconstruction (`reconstruct_path`).

Python dictionaries are modelled as insertion-ordered association lists
(`alookup` is `d[k]` read access, `aset` is `d[k] = v` assignment, which
overwrites the first matching key in place or appends a fresh key).  The
`heapq` priority queue of `(distance, node)` tuples is modelled as a list from
which `popMin` removes the lexicographically least element, which is exactly
the observable behaviour of `heapq.heappop` on tuples.  Latency weights
(Python floats) are modelled as rationals, and the `float('inf')` sentinel as
`⊤ : WithTop ℚ`.  The `while` loops are modelled with explicit fuel;
`DOut.fuelOut` marks fuel exhaustion and `DOut.keyError` a dictionary-access
fault (Python `KeyError`).
-/

set_option maxHeartbeats 1000000

abbrev Node := String

abbrev EdgeList := List (Node × ℚ)

abbrev Graph := List (Node × EdgeList)

abbrev DistTable := List (Node × WithTop ℚ)

abbrev PrevTable := List (Node × Option Node)

abbrev Queue := List (ℚ × Node)

/-- Python dictionary read `d[n]`: value at the first matching key, if any. -/
def alookup {α : Type} : List (Node × α) → Node → Option α
  | [], _ => none
  | (k, v) :: rest, n => if k = n then some v else alookup rest n

/-- Python dictionary write `d[n] = v`: overwrite the first matching key in
place, or append the key if absent. -/
def aset {α : Type} : List (Node × α) → Node → α → List (Node × α)
  | [], n, v => [(n, v)]
  | (k, w) :: rest, n, v => if k = n then (k, v) :: rest else (k, w) :: aset rest n v

/-- Key list of a Python dictionary, in insertion order. -/
def akeys {α : Type} (l : List (Node × α)) : List Node := l.map Prod.fst

/-- Lexicographic order on `(distance, node)` heap entries, exactly the tuple
comparison Python applies inside `heapq`. -/
def qLE (a b : ℚ × Node) : Prop := a.1 < b.1 ∨ (a.1 = b.1 ∧ a.2 ≤ b.2)

instance (a b : ℚ × Node) : Decidable (qLE a b) := by
  unfold qLE
  infer_instance

/-- Observable behaviour of `heapq.heappop`: remove and return a least element
of the queue (ties broken by the tuple order). -/
def popMin : Queue → Option ((ℚ × Node) × Queue)
  | [] => none
  | e :: es =>
    match popMin es with
    | none => some (e, [])
    | some (m, rest) => if qLE e m then some (e, es) else some (m, e :: rest)

/-- All edge weights of the graph are non-negative (the Dijkstra contract). -/
def NonnegG (g : Graph) : Prop := ∀ e ∈ g, ∀ p ∈ e.2, 0 ≤ p.2

/-- Well-formed graph dictionary: outer and inner key lists are duplicate-free
(as for real Python dicts) and every edge target is itself a graph key (the
data-model invariant of the specification). -/
def WFG (g : Graph) : Prop :=
  (akeys g).Nodup ∧ (∀ e ∈ g, (akeys e.2).Nodup) ∧ ∀ e ∈ g, ∀ p ∈ e.2, p.1 ∈ akeys g

instance (g : Graph) : Decidable (NonnegG g) := by
  unfold NonnegG
  infer_instance

instance (g : Graph) : Decidable (WFG g) := by
  unfold WFG
  infer_instance

/-- Weight of the directed edge `u → v`, when present: `graph[u][v]`. -/
def edgeWeight (g : Graph) (u v : Node) : Option ℚ :=
  match alookup g u with
  | some es => alookup es v
  | none => none

/-- Outcome of a run of the `while priority_queue:` loop in `dijkstra`. -/
inductive DOut where
  | done (distances : DistTable) (previous_nodes : PrevTable)
  | keyError
  | fuelOut
deriving DecidableEq

/-- Body of `for neighbor, weight in graph[current_node].items():` — relax each
outgoing edge of `current_node` in order; on improvement update the distance
and predecessor tables and push the new entry.  `none` models the `KeyError`
Python would raise reading `distances[neighbor]` for an unknown neighbor. -/
def relaxEdges : EdgeList → ℚ → Node → DistTable → PrevTable → Queue →
    Option (DistTable × PrevTable × Queue)
  | [], _, _, distances, previous_nodes, q => some (distances, previous_nodes, q)
  | (neighbor, weight) :: es, current_distance, current_node, distances, previous_nodes, q =>
    match alookup distances neighbor with
    | none => none
    | some dn =>
      if ((current_distance + weight : ℚ) : WithTop ℚ) < dn then
        relaxEdges es current_distance current_node
          (aset distances neighbor ((current_distance + weight : ℚ) : WithTop ℚ))
          (aset previous_nodes neighbor (some current_node))
          (q ++ [(current_distance + weight, neighbor)])
      else
        relaxEdges es current_distance current_node distances previous_nodes q

/-- The `while priority_queue:` loop of `dijkstra`, with explicit fuel.  Each
iteration pops the least entry, skips it when stale
(`current_distance > distances[current_node]`), and otherwise relaxes the
outgoing edges of `current_node`. -/
def dijkstraLoop (graph : Graph) : ℕ → DistTable → PrevTable → Queue → DOut
  | 0, distances, previous_nodes, q =>
    if q.isEmpty then .done distances previous_nodes else .fuelOut
  | fuel + 1, distances, previous_nodes, q =>
    match popMin q with
    | none => .done distances previous_nodes
    | some ((current_distance, current_node), rest) =>
      match alookup distances current_node with
      | none => .keyError
      | some dcur =>
        if dcur < (current_distance : WithTop ℚ) then
          dijkstraLoop graph fuel distances previous_nodes rest
        else
          match alookup graph current_node with
          | none => .keyError
          | some es =>
            match relaxEdges es current_distance current_node distances previous_nodes rest with
            | none => .keyError
            | some (d2, p2, q2) => dijkstraLoop graph fuel d2 p2 q2

/-- Initial distance table: `{node: float('inf') for node in graph}` followed
by `distances[start] = 0`. -/
def initDist (graph : Graph) (start : Node) : DistTable :=
  aset ((akeys graph).map fun node => (node, (⊤ : WithTop ℚ))) start ((0 : ℚ) : WithTop ℚ)

/-- Initial predecessor table: `{node: None for node in graph}`. -/
def initPrev (graph : Graph) : PrevTable :=
  (akeys graph).map fun node => (node, (none : Option Node))

/-- The `dijkstra(graph, start)` function: `distances` maps every graph key to
`inf` except `start` to `0`, `previous_nodes` maps every key to `None`, and the
queue is seeded with `(0, start)`. -/
def dijkstra (graph : Graph) (start : Node) (fuel : ℕ) : DOut :=
  dijkstraLoop graph fuel (initDist graph start) (initPrev graph) [((0 : ℚ), start)]

/-- The `reconstruct_path(prev_nodes, end)` backward walk, with explicit fuel
for the unbounded `while end is not None:` loop: prepend the current node and
follow its predecessor link.  The result is `none` both when the walk does not
finish within `fuel` steps and when a lookup hits a missing key (`KeyError`);
neither occurs for tables produced by a completed `dijkstra` run. -/
def reconstruct_path (prev_nodes : PrevTable) : ℕ → Node → Option (List Node)
  | 0, _ => none
  | fuel + 1, e =>
    match alookup prev_nodes e with
    | Option.none => Option.none
    | some Option.none => some [e]
    | some (some u) => (reconstruct_path prev_nodes fuel u).map (fun p => p ++ [e])

/-- Outcome of one `tailscale ping` probe as observed by the code: a parsed
latency, no parsable answer in the output, or an exception from the probe
itself (both failure cases are absorbed by the `else:`/`except:` branches). -/
inductive ProbeResult where
  | latency (ms : ℚ)
  | noReply
  | err

/-- The assignment `graph[src][dst] = latency`.  The outer key is always
present when this runs (`src` comes from `nodes`); the `none` branch is dead
code for the builder. -/
def addEdge (g : Graph) (src dst : Node) (w : ℚ) : Graph :=
  match alookup g src with
  | some es => aset g src (aset es dst w)
  | none => g

/-- The dict comprehension `graph = {node: {} for node in nodes}`. -/
def initGraph (nodes : List Node) : Graph :=
  nodes.foldl (fun g node => aset g node []) []

/-- One iteration of the probe loops: skip the diagonal, record an edge for a
parsed latency, leave the graph untouched on `sin respuesta` or an exception. -/
def probePair (measure : Node → Node → ProbeResult) (g : Graph) (src dst : Node) : Graph :=
  if src = dst then g
  else
    match measure src dst with
    | .latency ms => addEdge g src dst ms
    | .noReply => g
    | .err => g

/-- Core of `get_tailscale_network` (lines 22–45): initialise every node to an
empty adjacency dict, then probe every ordered pair of distinct nodes,
recording an edge only for probes that return a parsed latency. -/
def get_tailscale_network (nodes : List Node) (measure : Node → Node → ProbeResult) : Graph :=
  nodes.foldl (fun g src => nodes.foldl (fun g dst => probePair measure g src dst) g)
    (initGraph nodes)

/-- Final vertex of the walk `u :: l`. -/
def endOf (u : Node) : List Node → Node
  | [] => u
  | v :: rest => endOf v rest

/-- Total weight of the directed path that starts at `u` and then visits the
vertices of `l` in order; `none` when some required edge is absent. -/
def costFrom (g : Graph) (u : Node) : List Node → Option ℚ
  | [] => some 0
  | v :: rest =>
    match edgeWeight g u v, costFrom g v rest with
    | some w, some c => some (w + c)
    | _, _ => none

/-- Parsed latency carried by a successful probe; `none` covers both failure
modes (no parsable answer and an exception inside the probe). -/
def latencyOf : ProbeResult → Option ℚ
  | .latency ms => some ms
  | .noReply => none
  | .err => none

/-- Two-route example graph from the specification:
`{A: {B: 1, C: 4}, B: {C: 1}, C: {}}`. -/
def exampleGraph : Graph := [("A", [("B", 1), ("C", 4)]), ("B", [("C", 1)]), ("C", [])]

/-- Distance table computed by `dijkstra exampleGraph "A"`. -/
def exampleDist : DistTable :=
  [("A", ((0 : ℚ) : WithTop ℚ)), ("B", ((1 : ℚ) : WithTop ℚ)), ("C", ((2 : ℚ) : WithTop ℚ))]

/-- Predecessor table computed by `dijkstra exampleGraph "A"`. -/
def examplePrev : PrevTable := [("A", none), ("B", some "A"), ("C", some "B")]

/-- Predecessor table whose back-links form a two-node cycle. -/
def cycTable : PrevTable := [("a", some "b"), ("b", some "a")]

/-- Probe capability that raises on the pair `("a", "b")` and returns no
answer elsewhere. -/
def probeOneErr : Node → Node → ProbeResult := fun a b =>
  if a = "a" ∧ b = "b" then .err else .noReply

/-- Probe capability that never returns an answer. -/
def probeNoReply : Node → Node → ProbeResult := fun _ _ => .noReply

/-- Iterated predecessor lookup: follow `n` back-links starting at `x`.  The
result is `none` when the walk meets the `None` sentinel or leaves the table
within `n` steps. -/
def iterPrev (prev : PrevTable) : ℕ → Node → Option Node
  | 0, x => some x
  | n + 1, x =>
    match alookup prev x with
    | some (some u) => iterPrev prev n u
    | _ => none

/-- Out-degree of a node: the length of its adjacency list. -/
def outdeg (g : Graph) (x : Node) : ℕ :=
  match alookup g x with
  | some es => es.length
  | none => 0

/-- Relaxations still chargeable: total out-degree of the unsettled keys. -/
def unsettledDeg (g : Graph) (S : List Node) : ℕ :=
  (((akeys g).filter (fun x => decide (x ∉ S))).map (outdeg g)).sum

/-- Termination measure of the lazy-deletion loop: queue length plus the
out-degrees of the nodes not yet settled. -/
def loopMeasure (g : Graph) (S : List Node) (q : Queue) : ℕ :=
  q.length + unsettledDeg g S

/-- Fuel that provably suffices for `dijkstra` to drain its queue on
well-formed non-negative input: one pop for the seed entry plus one pop per
potential edge relaxation. -/
def dijkstraFuel (g : Graph) : ℕ := 1 + (g.map (fun e => e.2.length)).sum

/-- Invariant of the embedded `dijkstra` loop, relative to a ghost list `S` of
settled nodes — nodes already popped at their final (optimal) distance.
`frontier` is the crossing property: every start-rooted path either is already
matched by the recorded distance of its endpoint, or passes through an
unsettled node that sits in the queue at no more than its prefix cost. -/
structure DInv (g : Graph) (start : Node) (S : List Node) (dist : DistTable)
    (prev : PrevTable) (q : Queue) : Prop where
  keys_dist : akeys dist = akeys g
  keys_prev : akeys prev = akeys g
  dist_start : alookup dist start = some ((0 : ℚ) : WithTop ℚ)
  prev_start : alookup prev start = some none
  q_mem : ∀ d x, (d, x) ∈ q → x ∈ akeys g ∧ 0 ≤ d ∧
    ∃ dx, alookup dist x = some dx ∧ dx ≤ ((d : ℚ) : WithTop ℚ)
  reach : ∀ x (dx : ℚ), alookup dist x = some ((dx : ℚ) : WithTop ℚ) →
    ∃ rest, costFrom g start rest = some dx ∧ endOf start rest = x
  settled_mem : ∀ x ∈ S, x ∈ akeys g
  settled_opt : ∀ x ∈ S, ∀ rest (c : ℚ), costFrom g start rest = some c →
    endOf start rest = x → ∃ dx, alookup dist x = some dx ∧ dx ≤ ((c : ℚ) : WithTop ℚ)
  settled_edges : ∀ x ∈ S, ∀ es, alookup g x = some es → ∀ y (w : ℚ), (y, w) ∈ es →
    ∃ dx dy, alookup dist x = some dx ∧ alookup dist y = some dy ∧
      dy ≤ dx + ((w : ℚ) : WithTop ℚ)
  queue_cover : ∀ x ∈ akeys g, x ∉ S → ∀ dx : ℚ,
    alookup dist x = some ((dx : ℚ) : WithTop ℚ) → (dx, x) ∈ q
  frontier : ∀ rest (c : ℚ), costFrom g start rest = some c →
    (∃ dv, alookup dist (endOf start rest) = some dv ∧ dv ≤ ((c : ℚ) : WithTop ℚ)) ∨
    (∃ rest1 rest2 : List Node, ∃ c1 d : ℚ, rest = rest1 ++ rest2 ∧
      costFrom g start rest1 = some c1 ∧ endOf start rest1 ∉ S ∧
      (d, endOf start rest1) ∈ q ∧ d ≤ c1)
  prev_edge : ∀ v u, alookup prev v = some (some u) → ∃ (w dv du : ℚ),
    edgeWeight g u v = some w ∧ alookup dist v = some ((dv : ℚ) : WithTop ℚ) ∧
    alookup dist u = some ((du : ℚ) : WithTop ℚ) ∧ du + w ≤ dv
  prev_reached : ∀ v (dv : ℚ), alookup dist v = some ((dv : ℚ) : WithTop ℚ) →
    v ≠ start → ∃ u, alookup prev v = some (some u)
  no_cycle : ∀ x n, iterPrev prev (n + 1) x ≠ some x

/-- State invariant threaded through the relaxation fold over the edges of the
settled node `u`, popped at distance `d`.  `S'` is the settled list with `u`
already included. -/
structure RState (g : Graph) (start u : Node) (d : ℚ) (S' : List Node)
    (dist : DistTable) (prev : PrevTable) (q : Queue) : Prop where
  keys_dist : akeys dist = akeys g
  keys_prev : akeys prev = akeys g
  dist_start : alookup dist start = some ((0 : ℚ) : WithTop ℚ)
  prev_start : alookup prev start = some none
  dist_u : alookup dist u = some ((d : ℚ) : WithTop ℚ)
  u_settled : u ∈ S'
  q_mem : ∀ e x, (e, x) ∈ q → x ∈ akeys g ∧ 0 ≤ e ∧
    ∃ dx, alookup dist x = some dx ∧ dx ≤ ((e : ℚ) : WithTop ℚ)
  reach : ∀ x (dx : ℚ), alookup dist x = some ((dx : ℚ) : WithTop ℚ) →
    ∃ rest, costFrom g start rest = some dx ∧ endOf start rest = x
  settled_mem : ∀ x ∈ S', x ∈ akeys g
  settled_opt : ∀ x ∈ S', ∀ rest (c : ℚ), costFrom g start rest = some c →
    endOf start rest = x → ∃ dx, alookup dist x = some dx ∧ dx ≤ ((c : ℚ) : WithTop ℚ)
  queue_cover : ∀ x ∈ akeys g, x ∉ S' → ∀ dx : ℚ,
    alookup dist x = some ((dx : ℚ) : WithTop ℚ) → (dx, x) ∈ q
  prev_edge : ∀ v w', alookup prev v = some (some w') → ∃ (w dv du : ℚ),
    edgeWeight g w' v = some w ∧ alookup dist v = some ((dv : ℚ) : WithTop ℚ) ∧
    alookup dist w' = some ((du : ℚ) : WithTop ℚ) ∧ du + w ≤ dv
  prev_reached : ∀ v (dv : ℚ), alookup dist v = some ((dv : ℚ) : WithTop ℚ) →
    v ≠ start → ∃ w', alookup prev v = some (some w')
  no_cycle : ∀ x n, iterPrev prev (n + 1) x ≠ some x

-- Auxiliary definitions end here; theorems follow.

theorem akeys_nil {α : Type} : akeys ([] : List (Node × α)) = [] := rfl

theorem akeys_cons {α : Type} (k : Node) (v : α) (l : List (Node × α)) :
    akeys ((k, v) :: l) = k :: akeys l := rfl

theorem alookup_eq_none {α : Type} (l : List (Node × α)) (n : Node) :
    alookup l n = none ↔ n ∉ akeys l := by
  induction l with
  | nil => simp [alookup, akeys_nil]
  | cons e rest ih =>
    obtain ⟨k, v⟩ := e
    rw [akeys_cons]
    by_cases h : k = n
    · subst h
      simp [alookup]
    · simp only [alookup, if_neg h, ih, List.mem_cons]
      constructor
      · intro hn hn2
        rcases hn2 with hn2 | hn2
        · exact h hn2.symm
        · exact hn hn2
      · intro hn hn2
        exact hn (Or.inr hn2)

theorem mem_akeys_iff_isSome {α : Type} (l : List (Node × α)) (n : Node) :
    n ∈ akeys l ↔ ∃ v, alookup l n = some v := by
  rcases h : alookup l n with _ | v
  · rw [alookup_eq_none] at h
    simp [h]
  · constructor
    · intro
      exact ⟨v, rfl⟩
    · intro
      by_contra hn
      rw [← alookup_eq_none] at hn
      simp [hn] at h

theorem alookup_mem {α : Type} {l : List (Node × α)} {n : Node} {v : α}
    (h : alookup l n = some v) : (n, v) ∈ l := by
  induction l with
  | nil => simp [alookup] at h
  | cons e rest ih =>
    obtain ⟨k, w⟩ := e
    by_cases hk : k = n
    · subst hk
      have hv : w = v := by
        simp only [alookup] at h
        simpa using h
      subst hv
      exact List.mem_cons_self _ _
    · simp only [alookup, if_neg hk] at h
      exact List.mem_cons_of_mem _ (ih h)

theorem mem_akeys_of_mem {α : Type} {l : List (Node × α)} {n : Node} {v : α}
    (h : (n, v) ∈ l) : n ∈ akeys l :=
  List.mem_map.mpr ⟨(n, v), h, rfl⟩

theorem mem_alookup {α : Type} {l : List (Node × α)} {n : Node} {v : α}
    (hnd : (akeys l).Nodup) (h : (n, v) ∈ l) : alookup l n = some v := by
  induction l with
  | nil => simp at h
  | cons e rest ih =>
    obtain ⟨k, w⟩ := e
    rw [akeys_cons] at hnd
    rcases List.mem_cons.mp h with h | h
    · obtain ⟨h1, h2⟩ := Prod.mk.injEq .. ▸ h
      subst h1
      subst h2
      simp [alookup]
    · have hk : k ≠ n := by
        intro he
        subst he
        exact (List.nodup_cons.mp hnd).1 (mem_akeys_of_mem h)
      simp [alookup, hk, ih (List.nodup_cons.mp hnd).2 h]

theorem alookup_aset_self {α : Type} (l : List (Node × α)) (n : Node) (v : α) :
    alookup (aset l n v) n = some v := by
  induction l with
  | nil => simp [aset, alookup]
  | cons e rest ih =>
    obtain ⟨k, w⟩ := e
    by_cases h : k = n <;> simp [aset, alookup, h, ih]

theorem alookup_aset_ne {α : Type} (l : List (Node × α)) (n m : Node) (v : α)
    (h : m ≠ n) : alookup (aset l n v) m = alookup l m := by
  induction l with
  | nil =>
    simp only [aset, alookup]
    rw [if_neg (fun he => h he.symm)]
  | cons e rest ih =>
    obtain ⟨k, w⟩ := e
    by_cases hk : k = n
    · subst hk
      simp only [aset, if_pos rfl, alookup]
      rw [if_neg (fun he => h he.symm), if_neg (fun he => h he.symm)]
    · simp only [aset, if_neg hk, alookup]
      by_cases hkm : k = m
      · simp [hkm]
      · simp [hkm, ih]

theorem mem_akeys_aset {α : Type} (l : List (Node × α)) (n : Node) (v : α) (m : Node) :
    m ∈ akeys (aset l n v) ↔ m ∈ akeys l ∨ m = n := by
  constructor
  · intro h
    rw [mem_akeys_iff_isSome] at h
    obtain ⟨w, hw⟩ := h
    by_cases hmn : m = n
    · exact Or.inr hmn
    · rw [alookup_aset_ne _ _ _ _ hmn] at hw
      exact Or.inl ((mem_akeys_iff_isSome _ _).mpr ⟨w, hw⟩)
  · intro h
    rcases h with h | h
    · rw [mem_akeys_iff_isSome] at h ⊢
      obtain ⟨w, hw⟩ := h
      by_cases hmn : m = n
      · subst hmn
        exact ⟨v, alookup_aset_self _ _ _⟩
      · rw [alookup_aset_ne _ _ _ _ hmn]
        exact ⟨w, hw⟩
    · subst h
      exact (mem_akeys_iff_isSome _ _).mpr ⟨v, alookup_aset_self _ _ _⟩

theorem akeys_aset_of_mem {α : Type} {l : List (Node × α)} {n : Node} (v : α)
    (h : n ∈ akeys l) : akeys (aset l n v) = akeys l := by
  induction l with
  | nil => simp [akeys_nil] at h
  | cons e rest ih =>
    obtain ⟨k, w⟩ := e
    by_cases hk : k = n
    · simp [aset, hk, akeys_cons]
    · rw [akeys_cons] at h
      rcases List.mem_cons.mp h with h | h
      · exact absurd h.symm hk
      · simp only [aset, if_neg hk, akeys_cons, ih h]

theorem akeys_aset_nodup {α : Type} {l : List (Node × α)} {n : Node} (v : α)
    (h : (akeys l).Nodup) : (akeys (aset l n v)).Nodup := by
  by_cases hm : n ∈ akeys l
  · rw [akeys_aset_of_mem v hm]
    exact h
  · induction l with
    | nil => simp [aset, akeys]
    | cons e rest ih =>
      obtain ⟨k, w⟩ := e
      rw [akeys_cons] at h hm
      have hk : k ≠ n := fun he => hm (by simp [he])
      have hm2 : n ∉ akeys rest := fun he => hm (by simp [he])
      rw [List.nodup_cons] at h
      simp only [aset, if_neg hk, akeys_cons, List.nodup_cons]
      refine ⟨fun hb => ?_, ih h.2 hm2⟩
      rcases (mem_akeys_aset rest n v k).mp hb with hb | hb
      · exact h.1 hb
      · exact hk hb

theorem qLE_refl (a : ℚ × Node) : qLE a a := Or.inr ⟨rfl, le_refl _⟩

theorem qLE_trans {a b c : ℚ × Node} (h1 : qLE a b) (h2 : qLE b c) : qLE a c := by
  rcases h1 with h1 | ⟨h1, h1'⟩ <;> rcases h2 with h2 | ⟨h2, h2'⟩
  · exact Or.inl (h1.trans h2)
  · exact Or.inl (h2 ▸ h1)
  · exact Or.inl (h1 ▸ h2)
  · exact Or.inr ⟨h1.trans h2, h1'.trans h2'⟩

theorem qLE_total (a b : ℚ × Node) : qLE a b ∨ qLE b a := by
  rcases lt_trichotomy a.1 b.1 with h | h | h
  · exact Or.inl (Or.inl h)
  · rcases le_total a.2 b.2 with h2 | h2
    · exact Or.inl (Or.inr ⟨h, h2⟩)
    · exact Or.inr (Or.inr ⟨h.symm, h2⟩)
  · exact Or.inr (Or.inl h)

theorem qLE_fst {a b : ℚ × Node} (h : qLE a b) : a.1 ≤ b.1 := by
  rcases h with h | ⟨h, _⟩
  · exact h.le
  · exact h.le

theorem popMin_eq_none (q : Queue) : popMin q = none ↔ q = [] := by
  cases q with
  | nil => simp [popMin]
  | cons e es =>
    simp only [popMin]
    rcases h : popMin es with _ | p
    · simp
    · obtain ⟨m, rest⟩ := p
      by_cases hle : qLE e m <;> simp [hle]

theorem popMin_perm {q : Queue} {m : ℚ × Node} {rest : Queue}
    (h : popMin q = some (m, rest)) : q.Perm (m :: rest) := by
  induction q generalizing m rest with
  | nil => simp [popMin] at h
  | cons e es ih =>
    simp only [popMin] at h
    rcases h2 : popMin es with _ | p
    · rw [h2] at h
      rw [popMin_eq_none] at h2
      subst h2
      simp only [Option.some.injEq, Prod.mk.injEq] at h
      rw [h.1, h.2]
    · obtain ⟨m2, rest2⟩ := p
      rw [h2] at h
      dsimp only at h
      by_cases hle : qLE e m2
      · rw [if_pos hle] at h
        simp only [Option.some.injEq, Prod.mk.injEq] at h
        rw [h.1, h.2]
      · rw [if_neg hle] at h
        simp only [Option.some.injEq, Prod.mk.injEq] at h
        obtain ⟨hm, hr⟩ := h
        subst hm
        subst hr
        exact ((ih h2).cons e).trans (List.Perm.swap _ _ _)

theorem popMin_le {q : Queue} {m : ℚ × Node} {rest : Queue}
    (h : popMin q = some (m, rest)) : ∀ e ∈ q, qLE m e := by
  induction q generalizing m rest with
  | nil => simp [popMin] at h
  | cons e es ih =>
    simp only [popMin] at h
    rcases h2 : popMin es with _ | p
    · rw [h2] at h
      rw [popMin_eq_none] at h2
      subst h2
      simp only [Option.some.injEq, Prod.mk.injEq] at h
      intro x hx
      simp only [List.mem_singleton] at hx
      subst hx
      rw [h.1]
      exact qLE_refl _
    · obtain ⟨m2, rest2⟩ := p
      rw [h2] at h
      dsimp only at h
      by_cases hle : qLE e m2
      · rw [if_pos hle] at h
        simp only [Option.some.injEq, Prod.mk.injEq] at h
        obtain ⟨hm, hr⟩ := h
        subst hm
        subst hr
        intro x hx
        rcases List.mem_cons.mp hx with hx | hx
        · subst hx
          exact qLE_refl _
        · exact qLE_trans hle (ih h2 x hx)
      · rw [if_neg hle] at h
        simp only [Option.some.injEq, Prod.mk.injEq] at h
        obtain ⟨hm, hr⟩ := h
        subst hm
        subst hr
        intro x hx
        rcases List.mem_cons.mp hx with hx | hx
        · subst hx
          exact (qLE_total _ _).resolve_left hle
        · exact ih h2 x hx

theorem popMin_mem {q : Queue} {m : ℚ × Node} {rest : Queue}
    (h : popMin q = some (m, rest)) : m ∈ q :=
  (popMin_perm h).symm.subset (List.mem_cons_self _ _)

theorem popMin_subset {q : Queue} {m : ℚ × Node} {rest : Queue}
    (h : popMin q = some (m, rest)) : ∀ e ∈ rest, e ∈ q :=
  fun _ he => (popMin_perm h).symm.subset (List.mem_cons_of_mem _ he)

theorem popMin_length {q : Queue} {m : ℚ × Node} {rest : Queue}
    (h : popMin q = some (m, rest)) : q.length = rest.length + 1 := by
  have := (popMin_perm h).length_eq
  simpa using this


theorem initGraph_alookup_aux (nodes : List Node) (g0 : Graph) (a : Node) :
    alookup (nodes.foldl (fun g node => aset g node []) g0) a =
      if a ∈ nodes then some [] else alookup g0 a := by
  induction nodes generalizing g0 with
  | nil => simp
  | cons n rest ih =>
    rw [List.foldl_cons, ih]
    by_cases hr : a ∈ rest
    · simp [hr]
    · by_cases hn : a = n
      · subst hn
        simp [hr, alookup_aset_self]
      · simp [hr, hn, alookup_aset_ne _ _ _ _ hn]

theorem initGraph_alookup (nodes : List Node) (a : Node) :
    alookup (initGraph nodes) a = if a ∈ nodes then some [] else none := by
  rw [initGraph, initGraph_alookup_aux]
  rfl

theorem mem_akeys_initGraph (nodes : List Node) (a : Node) :
    a ∈ akeys (initGraph nodes) ↔ a ∈ nodes := by
  rw [mem_akeys_iff_isSome, initGraph_alookup]
  by_cases h : a ∈ nodes <;> simp [h]

theorem addEdge_akeys (g : Graph) (s d : Node) (w : ℚ) :
    akeys (addEdge g s d w) = akeys g := by
  unfold addEdge
  rcases h : alookup g s with _ | es
  · rfl
  · exact akeys_aset_of_mem _ (mem_akeys_of_mem (alookup_mem h))

theorem probePair_akeys (m : Node → Node → ProbeResult) (g : Graph) (s d : Node) :
    akeys (probePair m g s d) = akeys g := by
  unfold probePair
  by_cases h : s = d
  · simp [h]
  · rw [if_neg h]
    rcases m s d with ms | _ | _
    · exact addEdge_akeys g s d ms
    · rfl
    · rfl

theorem innerFold_akeys (m : Node → Node → ProbeResult) (src : Node) (ds : List Node)
    (g : Graph) :
    akeys (ds.foldl (fun g dst => probePair m g src dst) g) = akeys g := by
  induction ds generalizing g with
  | nil => rfl
  | cons d rest ih => rw [List.foldl_cons, ih, probePair_akeys]

theorem outerFold_akeys (m : Node → Node → ProbeResult) (nodes ss : List Node) (g : Graph) :
    akeys (ss.foldl (fun g src => nodes.foldl (fun g dst => probePair m g src dst) g) g)
      = akeys g := by
  induction ss generalizing g with
  | nil => rfl
  | cons sFirst rest ih => rw [List.foldl_cons, ih, innerFold_akeys]

theorem edgeWeight_addEdge (g : Graph) (s d : Node) (w : ℚ) (x y : Node)
    (hs : s ∈ akeys g) :
    edgeWeight (addEdge g s d w) x y =
      if x = s ∧ y = d then some w else edgeWeight g x y := by
  obtain ⟨es, hes⟩ := (mem_akeys_iff_isSome _ _).mp hs
  unfold addEdge
  rw [hes]
  by_cases hx : x = s
  · subst hx
    unfold edgeWeight
    rw [alookup_aset_self, hes]
    by_cases hy : y = d
    · subst hy
      simp [alookup_aset_self]
    · simp [hy, alookup_aset_ne _ _ _ _ hy]
  · unfold edgeWeight
    rw [alookup_aset_ne _ _ _ _ hx]
    simp [hx]

theorem probePair_edge (m : Node → Node → ProbeResult) (g : Graph) (s d : Node) (x y : Node)
    (hs : s ∈ akeys g) :
    edgeWeight (probePair m g s d) x y =
      if x = s ∧ y = d ∧ s ≠ d ∧ latencyOf (m s d) ≠ none then latencyOf (m s d)
      else edgeWeight g x y := by
  unfold probePair
  by_cases hsd : s = d
  · simp [hsd]
  · rw [if_neg hsd]
    rcases hm : m s d with ms | _ | _
    · rw [edgeWeight_addEdge g s d ms x y hs]
      by_cases hxy : x = s ∧ y = d
      · simp [hxy.1, hxy.2, hsd, latencyOf, hm]
      · rw [if_neg hxy, if_neg (fun hc => hxy ⟨hc.1, hc.2.1⟩)]
    · simp [latencyOf]
    · simp [latencyOf]

theorem innerFold_edge (m : Node → Node → ProbeResult) (src : Node) (ds : List Node)
    (g : Graph) (x y : Node) (hs : src ∈ akeys g) :
    edgeWeight (ds.foldl (fun g dst => probePair m g src dst) g) x y =
      if x = src ∧ y ∈ ds ∧ src ≠ y ∧ latencyOf (m src y) ≠ none then latencyOf (m src y)
      else edgeWeight g x y := by
  induction ds generalizing g with
  | nil => simp
  | cons d rest ih =>
    rw [List.foldl_cons]
    have hs2 : src ∈ akeys (probePair m g src d) := by rw [probePair_akeys]; exact hs
    rw [ih _ hs2]
    by_cases hrest : x = src ∧ y ∈ rest ∧ src ≠ y ∧ latencyOf (m src y) ≠ none
    · rw [if_pos hrest, if_pos ⟨hrest.1, List.mem_cons_of_mem _ hrest.2.1, hrest.2.2⟩]
    · rw [if_neg hrest, probePair_edge m g src d x y hs]
      by_cases hq : x = src ∧ y = d ∧ src ≠ d ∧ latencyOf (m src d) ≠ none
      · obtain ⟨hq1, hq2, hq3, hq4⟩ := hq
        subst hq2
        rw [if_pos ⟨hq1, rfl, hq3, hq4⟩, if_pos ⟨hq1, List.mem_cons_self _ _, hq3, hq4⟩]
      · rw [if_neg (fun hc => hq ⟨hc.1, hc.2.1, hc.2.2⟩)]
        rw [if_neg]
        intro hfull
        obtain ⟨h1, h2, h3, h4⟩ := hfull
        rcases List.mem_cons.mp h2 with h2 | h2
        · exact hq ⟨h1, h2, h2 ▸ h3, h2 ▸ h4⟩
        · exact hrest ⟨h1, h2, h3, h4⟩

theorem outerFold_edge (m : Node → Node → ProbeResult) (nodes ss : List Node) (g : Graph)
    (x y : Node) (hss : ∀ s ∈ ss, s ∈ akeys g) :
    edgeWeight (ss.foldl (fun g src => nodes.foldl (fun g dst => probePair m g src dst) g) g) x y
      = if x ∈ ss ∧ y ∈ nodes ∧ x ≠ y ∧ latencyOf (m x y) ≠ none then latencyOf (m x y)
        else edgeWeight g x y := by
  induction ss generalizing g with
  | nil => simp
  | cons sF rest ih =>
    rw [List.foldl_cons]
    have hg' : ∀ s ∈ rest, s ∈ akeys (nodes.foldl (fun g dst => probePair m g sF dst) g) := by
      intro s hmem
      rw [innerFold_akeys]
      exact hss s (List.mem_cons_of_mem _ hmem)
    rw [ih _ hg']
    by_cases hrest : x ∈ rest ∧ y ∈ nodes ∧ x ≠ y ∧ latencyOf (m x y) ≠ none
    · rw [if_pos hrest, if_pos ⟨List.mem_cons_of_mem _ hrest.1, hrest.2⟩]
    · rw [if_neg hrest, innerFold_edge m sF nodes g x y (hss sF (List.mem_cons_self _ _))]
      by_cases hq : x = sF ∧ y ∈ nodes ∧ sF ≠ y ∧ latencyOf (m sF y) ≠ none
      · obtain ⟨hq1, hq2, hq3, hq4⟩ := hq
        subst hq1
        rw [if_pos ⟨rfl, hq2, hq3, hq4⟩, if_pos ⟨List.mem_cons_self _ _, hq2, hq3, hq4⟩]
      · rw [if_neg hq, if_neg]
        intro hfull
        obtain ⟨h1, h2, h3, h4⟩ := hfull
        rcases List.mem_cons.mp h1 with h1 | h1
        · exact hq ⟨h1, h2, h1 ▸ h3, h1 ▸ h4⟩
        · exact hrest ⟨h1, h2, h3, h4⟩

theorem edgeWeight_initGraph (nodes : List Node) (x y : Node) :
    edgeWeight (initGraph nodes) x y = none := by
  unfold edgeWeight
  rw [initGraph_alookup]
  by_cases h : x ∈ nodes
  · simp [h, alookup]
  · simp [h]

theorem edgeWeight_build (nodes : List Node) (m : Node → Node → ProbeResult) (x y : Node) :
    edgeWeight (get_tailscale_network nodes m) x y =
      if x ∈ nodes ∧ y ∈ nodes ∧ x ≠ y then latencyOf (m x y) else none := by
  unfold get_tailscale_network
  rw [outerFold_edge m nodes nodes (initGraph nodes) x y
    (fun s hmem => (mem_akeys_initGraph nodes s).mpr hmem)]
  rw [edgeWeight_initGraph]
  by_cases hc : x ∈ nodes ∧ y ∈ nodes ∧ x ≠ y
  · rw [if_pos hc]
    by_cases hl : latencyOf (m x y) ≠ none
    · rw [if_pos ⟨hc.1, hc.2.1, hc.2.2, hl⟩]
    · rw [if_neg (fun hf => hl hf.2.2.2), not_not.mp hl]
  · rw [if_neg hc, if_neg (fun hf => hc ⟨hf.1, hf.2.1, hf.2.2.1⟩)]

/-- C3: for every input node list and probe capability, the key set of the
graph returned by `get_tailscale_network` is exactly the input node set —
every input node is a key even when all of its probes fail, and no further
keys appear. -/
theorem c3_build_keys_exact (nodes : List Node) (measure : Node → Node → ProbeResult)
    (n : Node) : n ∈ akeys (get_tailscale_network nodes measure) ↔ n ∈ nodes := by
  unfold get_tailscale_network
  rw [outerFold_akeys, mem_akeys_initGraph]

/-- C4: a failed probe for the ordered pair `(src, dst)` — whether it returned
no parsable answer or raised — leaves `graph[src][dst]` absent, and the result
recorded for every other ordered pair is unchanged when only the `(src, dst)`
probe outcome differs; the builder is a total function, so per-pair failures
never propagate out of it. -/
theorem c4_probe_failure_local (nodes : List Node) (m m' : Node → Node → ProbeResult)
    (src dst : Node) (hfail : latencyOf (m src dst) = none)
    (hagree : ∀ a b : Node, ¬(a = src ∧ b = dst) → m' a b = m a b) :
    edgeWeight (get_tailscale_network nodes m) src dst = none ∧
      ∀ a b : Node, ¬(a = src ∧ b = dst) →
        edgeWeight (get_tailscale_network nodes m') a b =
          edgeWeight (get_tailscale_network nodes m) a b := by
  constructor
  · rw [edgeWeight_build]
    by_cases hc : src ∈ nodes ∧ dst ∈ nodes ∧ src ≠ dst
    · rw [if_pos hc, hfail]
    · rw [if_neg hc]
  · intro a b hab
    rw [edgeWeight_build, edgeWeight_build, hagree a b hab]

theorem c4_witness :
    latencyOf (probeOneErr "a" "b") = none ∧
      edgeWeight (get_tailscale_network ["a", "b"] probeOneErr) "a" "b" = none ∧
      edgeWeight (get_tailscale_network ["a", "b"] probeNoReply) "b" "a" =
        edgeWeight (get_tailscale_network ["a", "b"] probeOneErr) "b" "a" := by
  have h := c4_probe_failure_local ["a", "b"] probeOneErr probeNoReply "a" "b" (by decide)
    (fun a b hab => by simp only [probeNoReply, probeOneErr, if_neg hab])
  exact ⟨by decide, h.1, h.2 "b" "a" (by decide)⟩

/-- C6: for every predecessor table and destination whose recorded predecessor
is the `None` sentinel, `reconstruct_path` returns the single-element sequence
containing just the destination. -/
theorem c6_unreached_destination (prev : PrevTable) (dest : Node) (fuel : ℕ)
    (h : alookup prev dest = some none) :
    reconstruct_path prev (fuel + 1) dest = some [dest] := by
  simp [reconstruct_path, h]

theorem c6_witness :
    alookup [("z", (none : Option Node))] "z" = some none ∧
      reconstruct_path [("z", (none : Option Node))] 1 "z" = some ["z"] :=
  ⟨by decide, c6_unreached_destination _ "z" 0 (by decide)⟩

/-- C7 counterexample: `reconstruct_path` has no step bound and no
structural-error signal.  On the two-node cyclic predecessor table the
backward walk is still running after 10 steps, far beyond the table's 2 keys,
and no error distinct from non-termination is ever produced. -/
theorem c7_counterexample :
    reconstruct_path cycTable 10 "a" = none ∧ (akeys cycTable).length < 10 := by decide

/-- C7 amended: `reconstruct_path` performs no cycle guard whatsoever — the
backward walk is unbounded, and on a predecessor table whose back-links form a
cycle it never terminates: for every step allowance the walk from either node
of the two-node cyclic table is still unfinished. -/
theorem c7_amended_walk_diverges (fuel : ℕ) :
    reconstruct_path cycTable fuel "a" = none ∧
      reconstruct_path cycTable fuel "b" = none := by
  induction fuel with
  | zero => exact ⟨rfl, rfl⟩
  | succ n ih =>
    have ha : alookup cycTable "a" = some (some "b") := by decide
    have hb : alookup cycTable "b" = some (some "a") := by decide
    constructor
    · show (match alookup cycTable "a" with
        | Option.none => Option.none
        | some Option.none => some ["a"]
        | some (some u) => (reconstruct_path cycTable n u).map (fun p => p ++ ["a"])) = none
      rw [ha]
      dsimp only
      rw [ih.2]
      rfl
    · show (match alookup cycTable "b" with
        | Option.none => Option.none
        | some Option.none => some ["b"]
        | some (some u) => (reconstruct_path cycTable n u).map (fun p => p ++ ["b"])) = none
      rw [hb]
      dsimp only
      rw [ih.1]
      rfl

/-- C8: `dijkstra` is deterministic in its inputs — two completed invocations
with the same graph, source and fuel return identical distance tables and
identical predecessor tables. -/
theorem c8_deterministic (g : Graph) (s : Node) (fuel : ℕ) (d1 d2 : DistTable)
    (p1 p2 : PrevTable) (h1 : dijkstra g s fuel = .done d1 p1)
    (h2 : dijkstra g s fuel = .done d2 p2) : d1 = d2 ∧ p1 = p2 := by
  rw [h1] at h2
  injection h2 with hd hp
  exact ⟨hd, hp⟩

theorem c8_witness :
    dijkstra exampleGraph "A" 10 = DOut.done exampleDist examplePrev ∧
      exampleDist = exampleDist ∧ examplePrev = examplePrev := by
  have hrun : dijkstra exampleGraph "A" 10 = DOut.done exampleDist examplePrev := by
    with_unfolding_all decide
  exact ⟨hrun, c8_deterministic exampleGraph "A" 10 _ _ _ _ hrun hrun⟩

/-- C9: on the two-path graph `{A: {B: 1, C: 4}, B: {C: 1}, C: {}}` with source
`A`, `dijkstra` computes `distance[C] = 2` and path reconstruction yields
`[A, B, C]`: the two-hop route is preferred to the heavier direct edge. -/
theorem c9_concrete_two_path :
    dijkstra exampleGraph "A" 10 = DOut.done exampleDist examplePrev ∧
      alookup exampleDist "C" = some ((2 : ℚ) : WithTop ℚ) ∧
      reconstruct_path examplePrev 10 "C" = some ["A", "B", "C"] :=
  ⟨by with_unfolding_all decide, by decide, by decide⟩

theorem endOf_append (u : Node) (l1 l2 : List Node) :
    endOf u (l1 ++ l2) = endOf (endOf u l1) l2 := by
  induction l1 generalizing u with
  | nil => rfl
  | cons v rest ih => exact ih v

theorem endOf_cons (u v : Node) (l : List Node) : endOf u (v :: l) = endOf v l := rfl

theorem costFrom_append (g : Graph) (u : Node) (l1 l2 : List Node) :
    costFrom g u (l1 ++ l2) =
      match costFrom g u l1, costFrom g (endOf u l1) l2 with
      | some a, some b => some (a + b)
      | _, _ => none := by
  induction l1 generalizing u with
  | nil =>
    show costFrom g u l2 = match costFrom g u ([] : List Node), costFrom g u l2 with
      | some a, some b => some (a + b)
      | _, _ => none
    rcases h : costFrom g u l2 with _ | c
    · rfl
    · show some c = some ((0 : ℚ) + c)
      rw [zero_add]
  | cons v rest ih =>
    show costFrom g u (v :: (rest ++ l2)) = _
    rcases h1 : edgeWeight g u v with _ | w
    · simp only [costFrom, h1, endOf_cons]
    · simp only [costFrom, h1, ih, endOf_cons]
      rcases h2 : costFrom g v rest with _ | a
      · rfl
      · rcases h3 : costFrom g (endOf v rest) l2 with _ | b
        · rfl
        · show some (w + (a + b)) = some ((w + a) + b)
          rw [add_assoc]

theorem mem_of_edgeWeight {g : Graph} {u v : Node} {w : ℚ}
    (h : edgeWeight g u v = some w) : ∃ es, alookup g u = some es ∧ (v, w) ∈ es := by
  unfold edgeWeight at h
  rcases h2 : alookup g u with _ | es
  · rw [h2] at h
    simp at h
  · rw [h2] at h
    exact ⟨es, rfl, alookup_mem h⟩

theorem edgeWeight_nonneg {g : Graph} (hnn : NonnegG g) {u v : Node} {w : ℚ}
    (h : edgeWeight g u v = some w) : 0 ≤ w := by
  obtain ⟨es, hes, hmem⟩ := mem_of_edgeWeight h
  exact hnn (u, es) (alookup_mem hes) (v, w) hmem

theorem edgeWeight_target_mem {g : Graph} (hwf : WFG g) {u v : Node} {w : ℚ}
    (h : edgeWeight g u v = some w) : v ∈ akeys g := by
  obtain ⟨es, hes, hmem⟩ := mem_of_edgeWeight h
  exact hwf.2.2 (u, es) (alookup_mem hes) (v, w) hmem

theorem edgeWeight_of_mem {g : Graph} (hwf : WFG g) {u v : Node} {w : ℚ} {es : EdgeList}
    (hes : alookup g u = some es) (hmem : (v, w) ∈ es) : edgeWeight g u v = some w := by
  unfold edgeWeight
  rw [hes]
  exact mem_alookup (hwf.2.1 (u, es) (alookup_mem hes)) hmem

theorem costFrom_nonneg {g : Graph} (hnn : NonnegG g) :
    ∀ (l : List Node) (u : Node) (c : ℚ), costFrom g u l = some c → 0 ≤ c := by
  intro l
  induction l with
  | nil =>
    intro u c h
    simp only [costFrom, Option.some.injEq] at h
    rw [← h]
  | cons v rest ih =>
    intro u c h
    simp only [costFrom] at h
    rcases h1 : edgeWeight g u v with _ | w <;> rw [h1] at h
    · simp at h
    · rcases h2 : costFrom g v rest with _ | a <;> rw [h2] at h
      · simp at h
      · simp only [Option.some.injEq] at h
        rw [← h]
        exact add_nonneg (edgeWeight_nonneg hnn h1) (ih v a h2)

theorem costFrom_snoc {g : Graph} {u v : Node} {l : List Node} {c w : ℚ}
    (hc : costFrom g u l = some c) (hw : edgeWeight g (endOf u l) v = some w) :
    costFrom g u (l ++ [v]) = some (c + w) := by
  rw [costFrom_append, hc]
  show (match (some c : Option ℚ), costFrom g (endOf u l) [v] with
    | some a, some b => some (a + b)
    | _, _ => none) = some (c + w)
  simp only [costFrom, hw]
  show some (c + (w + 0)) = some (c + w)
  rw [add_zero]

theorem costFrom_split {g : Graph} {u : Node} {l1 l2 : List Node} {c : ℚ}
    (h : costFrom g u (l1 ++ l2) = some c) :
    ∃ c1 c2 : ℚ, costFrom g u l1 = some c1 ∧
      costFrom g (endOf u l1) l2 = some c2 ∧ c = c1 + c2 := by
  rw [costFrom_append] at h
  rcases h1 : costFrom g u l1 with _ | a <;> rw [h1] at h
  · simp at h
  · rcases h2 : costFrom g (endOf u l1) l2 with _ | b <;> rw [h2] at h
    · simp at h
    · simp only [Option.some.injEq] at h
      exact ⟨a, b, rfl, rfl, h.symm⟩

theorem iterPrev_succ_of_link {prev : PrevTable} {x u : Node}
    (h : alookup prev x = some (some u)) (n : ℕ) :
    iterPrev prev (n + 1) x = iterPrev prev n u := by
  simp [iterPrev, h]

theorem iterPrev_add (prev : PrevTable) (m n : ℕ) (x : Node) :
    iterPrev prev (m + n) x = (iterPrev prev m x).bind (iterPrev prev n) := by
  induction m generalizing x with
  | zero =>
    rw [Nat.zero_add]
    rfl
  | succ m ih =>
    have harr : m + 1 + n = (m + n) + 1 := by omega
    rw [harr]
    show (match alookup prev x with
      | some (some u) => iterPrev prev (m + n) u
      | _ => none) = ((match alookup prev x with
      | some (some u) => iterPrev prev m u
      | _ => none) : Option Node).bind (iterPrev prev n)
    rcases h : alookup prev x with _ | p
    · rfl
    · rcases p with _ | u
      · rfl
      · exact ih u

theorem iterPrev_isSome_mono {prev : PrevTable} {n : ℕ} {x y : Node}
    (h : iterPrev prev n x = some y) {m : ℕ} (hm : m ≤ n) :
    ∃ z, iterPrev prev m x = some z := by
  obtain ⟨k, hk⟩ := Nat.exists_eq_add_of_le hm
  subst hk
  rw [iterPrev_add] at h
  rcases h2 : iterPrev prev m x with _ | z
  · rw [h2] at h
    simp at h
  · exact ⟨z, rfl⟩

theorem iterPrev_mem {prev : PrevTable}
    (hcl : ∀ a b, alookup prev a = some (some b) → b ∈ akeys prev) :
    ∀ (n : ℕ) (v r : Node), v ∈ akeys prev → iterPrev prev n v = some r →
      r ∈ akeys prev := by
  intro n
  induction n with
  | zero =>
    intro v r hv h
    simp only [iterPrev, Option.some.injEq] at h
    rw [← h]
    exact hv
  | succ n ih =>
    intro v r hv h
    rcases h2 : alookup prev v with _ | p
    · simp [iterPrev, h2] at h
    · rcases p with _ | u
      · simp [iterPrev, h2] at h
      · rw [iterPrev_succ_of_link h2] at h
        exact ih u r (hcl v u h2) h

theorem iterPrev_ne_of_lt {prev : PrevTable}
    (hnc : ∀ x n, iterPrev prev (n + 1) x ≠ some x) {v : Node} {i j : ℕ} (hij : i < j)
    {z : Node} (hi : iterPrev prev i v = some z) (hj : iterPrev prev j v = some z) :
    False := by
  have harr : j = i + (j - i) := by omega
  rw [harr, iterPrev_add, hi] at hj
  simp only [Option.some_bind] at hj
  have hd : j - i - 1 + 1 = j - i := by omega
  exact hnc z (j - i - 1) (by rw [hd]; exact hj)

theorem iterPrev_stops {prev : PrevTable}
    (hnc : ∀ x n, iterPrev prev (n + 1) x ≠ some x)
    (hcl : ∀ a b, alookup prev a = some (some b) → b ∈ akeys prev)
    {v : Node} (hv : v ∈ akeys prev) :
    iterPrev prev ((akeys prev).length) v = none := by
  rcases hy : iterPrev prev ((akeys prev).length) v with _ | y
  · rfl
  exfalso
  have hall : ∀ i, i ≤ (akeys prev).length → ∃ z, iterPrev prev i v = some z :=
    fun i hi => iterPrev_isSome_mono hy hi
  set K := (akeys prev).length with hK
  set L : List Node := (List.range (K + 1)).map (fun i => (iterPrev prev i v).getD v)
    with hL
  have hLsub : ∀ a ∈ L, a ∈ akeys prev := by
    intro a ha
    rw [hL] at ha
    obtain ⟨i, hi, hia⟩ := List.mem_map.mp ha
    rw [List.mem_range] at hi
    obtain ⟨z, hz⟩ := hall i (by omega)
    rw [hz] at hia
    simp only [Option.getD_some] at hia
    rw [← hia]
    exact iterPrev_mem hcl i v z hv hz
  have hLnd : L.Nodup := by
    rw [hL]
    refine List.Nodup.map_on ?_ (List.nodup_range _)
    intro i hi j hj hij
    rw [List.mem_range] at hi hj
    obtain ⟨zi, hzi⟩ := hall i (by omega)
    obtain ⟨zj, hzj⟩ := hall j (by omega)
    rw [hzi, hzj] at hij
    simp only [Option.getD_some] at hij
    rcases lt_trichotomy i j with hlt | heq | hlt
    · exact absurd (iterPrev_ne_of_lt hnc hlt hzi (hij ▸ hzj)) not_false
    · exact heq
    · exact absurd (iterPrev_ne_of_lt hnc hlt hzj (hij ▸ hzi)) not_false
  have hlen : L.length = K + 1 := by
    rw [hL, List.length_map, List.length_range]
  have := (List.subperm_of_subset hLnd hLsub).length_le
  rw [hlen] at this
  omega

theorem chain_to_sentinel {prev : PrevTable}
    (hnc : ∀ x n, iterPrev prev (n + 1) x ≠ some x)
    (hcl : ∀ a b, alookup prev a = some (some b) → b ∈ akeys prev)
    {v : Node} (hv : v ∈ akeys prev) :
    ∃ n r, n + 1 ≤ (akeys prev).length ∧ iterPrev prev n v = some r ∧
      alookup prev r = some none := by
  set K := (akeys prev).length with hK
  have hKpos : 0 < K := by
    rw [hK]
    exact List.length_pos.mpr (fun he => by rw [he] at hv; exact (List.not_mem_nil v) hv)
  have hex : ∃ n, iterPrev prev (n + 1) v = none := by
    refine ⟨K - 1, ?_⟩
    rw [show K - 1 + 1 = K from by omega]
    exact iterPrev_stops hnc hcl hv
  have hN : iterPrev prev (Nat.find hex + 1) v = none := Nat.find_spec hex
  have hmin : ∀ i, i < Nat.find hex → iterPrev prev (i + 1) v ≠ none :=
    fun i hi => Nat.find_min hex hi
  have hr : ∃ r, iterPrev prev (Nat.find hex) v = some r := by
    rcases Nat.eq_zero_or_pos (Nat.find hex) with h0 | h0
    · rw [h0]
      exact ⟨v, rfl⟩
    · have h1 := hmin (Nat.find hex - 1) (by omega)
      rw [show Nat.find hex - 1 + 1 = Nat.find hex from by omega] at h1
      rcases h2 : iterPrev prev (Nat.find hex) v with _ | r
      · exact absurd h2 h1
      · exact ⟨r, rfl⟩
  obtain ⟨r, hr⟩ := hr
  have hbound : Nat.find hex + 1 ≤ K := by
    by_contra hlt
    have hKle : K ≤ Nat.find hex := by omega
    obtain ⟨z, hz⟩ := iterPrev_isSome_mono hr hKle
    rw [iterPrev_stops hnc hcl hv] at hz
    exact Option.noConfusion hz
  have hterm : alookup prev r = some none := by
    have h1 := iterPrev_add prev (Nat.find hex) 1 v
    rw [hr, hN] at h1
    simp only [Option.some_bind] at h1
    rcases hp : alookup prev r with _ | p
    · have hrmem := iterPrev_mem hcl (Nat.find hex) v r hv hr
      rw [alookup_eq_none] at hp
      exact absurd hrmem hp
    · rcases p with _ | u
      · rfl
      · rw [iterPrev_succ_of_link hp] at h1
        exact Option.noConfusion h1
  exact ⟨Nat.find hex, r, hbound, hr, hterm⟩

theorem iterPrev_update_avoid {prev : PrevTable} {vv : Node} {pv : Option Node} :
    ∀ (n : ℕ) (x : Node), (∀ i, i < n → iterPrev (aset prev vv pv) i x ≠ some vv) →
      iterPrev (aset prev vv pv) n x = iterPrev prev n x := by
  intro n
  induction n with
  | zero => intro x _; rfl
  | succ n ih =>
    intro x hx
    have hxvv : x ≠ vv := by
      intro he
      subst he
      exact hx 0 (by omega) rfl
    have hlk : alookup (aset prev vv pv) x = alookup prev x := alookup_aset_ne _ _ _ _ hxvv
    rcases hp : alookup prev x with _ | p
    · simp [iterPrev, hlk, hp]
    · rcases p with _ | u
      · simp [iterPrev, hlk, hp]
      · rw [iterPrev_succ_of_link (hlk.trans hp), iterPrev_succ_of_link hp]
        apply ih
        intro i hi
        have h2 := hx (i + 1) (by omega)
        rw [iterPrev_succ_of_link (hlk.trans hp)] at h2
        exact h2

theorem no_cycle_update {prev : PrevTable} {vv unew : Node}
    (hnc : ∀ x n, iterPrev prev (n + 1) x ≠ some x)
    (havoid : ∀ k, iterPrev prev k unew ≠ some vv) :
    ∀ x n, iterPrev (aset prev vv (some unew)) (n + 1) x ≠ some x := by
  intro x n hcyc
  by_cases hav : ∀ i, i < n + 1 → iterPrev (aset prev vv (some unew)) i x ≠ some vv
  · rw [iterPrev_update_avoid (n + 1) x hav] at hcyc
    exact hnc x n hcyc
  · push_neg at hav
    obtain ⟨i, hi, hivv⟩ := hav
    have ha : iterPrev (aset prev vv (some unew)) (n + 1 - i) vv = some x := by
      have h2 : iterPrev (aset prev vv (some unew)) (i + (n + 1 - i)) x = some x := by
        rw [show i + (n + 1 - i) = n + 1 from by omega]
        exact hcyc
      rw [iterPrev_add, hivv] at h2
      simpa using h2
    have hrot : iterPrev (aset prev vv (some unew)) (n + 1) vv = some vv := by
      have h1 : iterPrev (aset prev vv (some unew)) ((n + 1 - i) + i) vv = some vv := by
        rw [iterPrev_add, ha]
        simpa using hivv
      rw [show (n + 1 - i) + i = n + 1 from by omega] at h1
      exact h1
    have hstep : alookup (aset prev vv (some unew)) vv = some (some unew) :=
      alookup_aset_self _ _ _
    rw [iterPrev_succ_of_link hstep] at hrot
    have hex : ∃ j, iterPrev (aset prev vv (some unew)) j unew = some vv := ⟨n, hrot⟩
    have hJ := Nat.find_spec hex
    have hmin : ∀ i, i < Nat.find hex →
        iterPrev (aset prev vv (some unew)) i unew ≠ some vv :=
      fun i hi => Nat.find_min hex hi
    rw [iterPrev_update_avoid (Nat.find hex) unew hmin] at hJ
    exact havoid (Nat.find hex) hJ

theorem chain_dist_le {g : Graph} {dist : DistTable} {prev : PrevTable}
    (hnn : NonnegG g)
    (hpe : ∀ v u, alookup prev v = some (some u) → ∃ (w dv du : ℚ),
      edgeWeight g u v = some w ∧ alookup dist v = some ((dv : ℚ) : WithTop ℚ) ∧
      alookup dist u = some ((du : ℚ) : WithTop ℚ) ∧ du + w ≤ dv) :
    ∀ (k : ℕ) (x y : Node), iterPrev prev (k + 1) x = some y →
      ∃ dx dy : ℚ, alookup dist x = some ((dx : ℚ) : WithTop ℚ) ∧
        alookup dist y = some ((dy : ℚ) : WithTop ℚ) ∧ dy ≤ dx := by
  intro k
  induction k with
  | zero =>
    intro x y h
    rcases hp : alookup prev x with _ | p
    · simp [iterPrev, hp] at h
    · rcases p with _ | u
      · simp [iterPrev, hp] at h
      · rw [iterPrev_succ_of_link hp] at h
        have hu : u = y := by simpa [iterPrev] using h
        subst hu
        obtain ⟨w, dv, du, hw, hdv, hdu, hle⟩ := hpe x u hp
        have hw0 := edgeWeight_nonneg hnn hw
        exact ⟨dv, du, hdv, hdu, by linarith⟩
  | succ k ih =>
    intro x y h
    rcases hp : alookup prev x with _ | p
    · simp [iterPrev, hp] at h
    · rcases p with _ | u
      · simp [iterPrev, hp] at h
      · rw [iterPrev_succ_of_link hp] at h
        obtain ⟨du1, dy, hdu1, hdy, hle1⟩ := ih u y h
        obtain ⟨w, dv, du, hw, hdv, hdu, hle⟩ := hpe x u hp
        have hdeq : du = du1 := by
          rw [hdu] at hdu1
          exact WithTop.coe_inj.mp (Option.some.inj hdu1)
        have hw0 := edgeWeight_nonneg hnn hw
        exact ⟨dv, dy, hdv, hdy, by rw [← hdeq] at hle1; linarith⟩

theorem relax_spec {g : Graph} {start u : Node} {d : ℚ} {S' : List Node}
    (hnn : NonnegG g) (hwf : WFG g) (hd0 : 0 ≤ d) {esU : EdgeList}
    (hesU : alookup g u = some esU) :
    ∀ (es : EdgeList), (∀ p ∈ es, p ∈ esU) →
    ∀ (dist : DistTable) (prev : PrevTable) (q : Queue),
      RState g start u d S' dist prev q →
      ∃ dist' prev' q', relaxEdges es d u dist prev q = some (dist', prev', q') ∧
        RState g start u d S' dist' prev' q' ∧
        (∀ x dx', alookup dist' x = some dx' →
          ∃ dx, alookup dist x = some dx ∧ dx' ≤ dx) ∧
        (∀ x ∈ S', alookup dist' x = alookup dist x) ∧
        (∀ e ∈ q, e ∈ q') ∧
        q'.length ≤ q.length + es.length ∧
        (∀ y (w : ℚ), (y, w) ∈ es → ∃ dy, alookup dist' y = some dy ∧
          dy ≤ ((d + w : ℚ) : WithTop ℚ)) := by
  intro es
  induction es with
  | nil =>
    intro hsub dist prev q R
    refine ⟨dist, prev, q, rfl, R, ?_, ?_, ?_, ?_, ?_⟩
    · intro x dx' h
      exact ⟨dx', h, le_refl _⟩
    · intro x _
      rfl
    · intro e he
      exact he
    · omega
    · intro y w hmem
      exact absurd hmem (List.not_mem_nil _)
  | cons p es2 ih =>
    obtain ⟨y, w⟩ := p
    intro hsub dist prev q R
    have hmemU : (y, w) ∈ esU := hsub _ (List.mem_cons_self _ _)
    have hew : edgeWeight g u y = some w := edgeWeight_of_mem hwf hesU hmemU
    have hw0 : 0 ≤ w := edgeWeight_nonneg hnn hew
    have hyg : y ∈ akeys g := edgeWeight_target_mem hwf hew
    have hydist : y ∈ akeys dist := by rw [R.keys_dist]; exact hyg
    obtain ⟨dn, hdn⟩ := (mem_akeys_iff_isSome _ _).mp hydist
    by_cases hlt : ((d + w : ℚ) : WithTop ℚ) < dn
    · -- improvement branch
      have heqn : relaxEdges ((y, w) :: es2) d u dist prev q =
          relaxEdges es2 d u (aset dist y ((d + w : ℚ) : WithTop ℚ))
            (aset prev y (some u)) (q ++ [(d + w, y)]) := by
        simp only [relaxEdges]
        rw [hdn]
        dsimp only
        rw [if_pos hlt]
      obtain ⟨restU, hcostU, hendU⟩ := R.reach u d R.dist_u
      have hpath : costFrom g start (restU ++ [y]) = some (d + w) :=
        costFrom_snoc hcostU (by rw [hendU]; exact hew)
      have hend2 : endOf start (restU ++ [y]) = y := by
        rw [endOf_append, hendU]
        rfl
      have hyS : y ∉ S' := by
        intro hyS
        obtain ⟨dy2, hdy2, hle2⟩ := R.settled_opt y hyS _ _ hpath hend2
        rw [hdn] at hdy2
        have := Option.some.inj hdy2
        rw [← this] at hle2
        exact absurd hlt (not_lt.mpr hle2)
      have hyu : y ≠ u := fun he => hyS (he ▸ R.u_settled)
      have hystart : y ≠ start := by
        intro he
        rw [he, R.dist_start] at hdn
        have h0 : dn = ((0 : ℚ) : WithTop ℚ) := (Option.some.inj hdn).symm
        rw [h0, WithTop.coe_lt_coe] at hlt
        linarith
      have R1 : RState g start u d S' (aset dist y ((d + w : ℚ) : WithTop ℚ))
          (aset prev y (some u)) (q ++ [(d + w, y)]) := by
        refine ⟨?_, ?_, ?_, ?_, ?_, R.u_settled, ?_, ?_, R.settled_mem, ?_, ?_, ?_, ?_, ?_⟩
        · rw [akeys_aset_of_mem _ hydist]
          exact R.keys_dist
        · rw [akeys_aset_of_mem _ (by rw [R.keys_prev]; exact hyg)]
          exact R.keys_prev
        · rw [alookup_aset_ne _ _ _ _ (fun he => hystart he.symm)]
          exact R.dist_start
        · rw [alookup_aset_ne _ _ _ _ (fun he => hystart he.symm)]
          exact R.prev_start
        · rw [alookup_aset_ne _ _ _ _ (fun he => hyu he.symm)]
          exact R.dist_u
        · -- q_mem
          intro e x hx
          rcases List.mem_append.mp hx with hx | hx
          · obtain ⟨hxg, he0, dx, hdx, hdxle⟩ := R.q_mem e x hx
            by_cases hxy : x = y
            · subst hxy
              rw [hdn] at hdx
              have := Option.some.inj hdx
              refine ⟨hxg, he0, _, alookup_aset_self _ _ _, ?_⟩
              rw [← this] at hdxle
              exact le_trans (le_of_lt hlt) hdxle
            · rw [alookup_aset_ne _ _ _ _ hxy]
              exact ⟨hxg, he0, dx, hdx, hdxle⟩
          · have hx2 : e = d + w ∧ x = y := by
              simpa [Prod.ext_iff] using hx
            rw [hx2.1, hx2.2]
            exact ⟨hyg, by linarith, _, alookup_aset_self _ _ _, le_refl _⟩
        · -- reach
          intro x dx hx
          by_cases hxy : x = y
          · rw [hxy, alookup_aset_self] at hx
            have hxd : dx = d + w := WithTop.coe_inj.mp (Option.some.inj hx).symm
            rw [hxy, hxd]
            exact ⟨restU ++ [y], hpath, hend2⟩
          · rw [alookup_aset_ne _ _ _ _ hxy] at hx
            exact R.reach x dx hx
        · -- settled_opt
          intro x hxS rest c hc hend
          have hxy : x ≠ y := fun he => hyS (he ▸ hxS)
          rw [alookup_aset_ne _ _ _ _ hxy]
          exact R.settled_opt x hxS rest c hc hend
        · -- queue_cover
          intro x hxg hxS dx hx
          by_cases hxy : x = y
          · rw [hxy, alookup_aset_self] at hx
            have hxd : dx = d + w := WithTop.coe_inj.mp (Option.some.inj hx).symm
            rw [hxy, hxd]
            exact List.mem_append.mpr (Or.inr (List.mem_singleton.mpr rfl))
          · rw [alookup_aset_ne _ _ _ _ hxy] at hx
            exact List.mem_append.mpr (Or.inl (R.queue_cover x hxg hxS dx hx))
        · -- prev_edge
          intro v pu hlk
          by_cases hvy : v = y
          · rw [hvy, alookup_aset_self] at hlk
            have hpu : u = pu := Option.some.inj (Option.some.inj hlk)
            rw [hvy, ← hpu]
            refine ⟨w, d + w, d, hew, alookup_aset_self _ _ _, ?_, le_refl _⟩
            rw [alookup_aset_ne _ _ _ _ (fun he => hyu he.symm)]
            exact R.dist_u
          · rw [alookup_aset_ne _ _ _ _ hvy] at hlk
            obtain ⟨w', dv, du', hw', hdv, hdu', hle'⟩ := R.prev_edge v pu hlk
            refine ⟨w', dv, ?_⟩
            rw [alookup_aset_ne _ _ _ _ hvy]
            by_cases hpy : pu = y
            · refine ⟨d + w, hw', hdv, ?_, ?_⟩
              · rw [hpy]
                exact alookup_aset_self _ _ _
              · rw [hpy, hdn] at hdu'
                have hdneq : dn = ((du' : ℚ) : WithTop ℚ) := Option.some.inj hdu'
                rw [hdneq, WithTop.coe_lt_coe] at hlt
                linarith
            · rw [alookup_aset_ne _ _ _ _ hpy]
              exact ⟨du', hw', hdv, hdu', hle'⟩
        · -- prev_reached
          intro v dv hdv hvstart
          by_cases hvy : v = y
          · rw [hvy]
            exact ⟨u, alookup_aset_self _ _ _⟩
          · rw [alookup_aset_ne _ _ _ _ hvy] at hdv
            obtain ⟨pu, hpu⟩ := R.prev_reached v dv hdv hvstart
            refine ⟨pu, ?_⟩
            rw [alookup_aset_ne _ _ _ _ hvy]
            exact hpu
        · -- no_cycle
          apply no_cycle_update R.no_cycle
          intro k
          cases k with
          | zero =>
            intro hk
            exact hyu (Option.some.inj hk).symm
          | succ j =>
            intro hk
            obtain ⟨du', dy', hdu', hdy', hled⟩ := chain_dist_le hnn R.prev_edge j u y hk
            rw [R.dist_u] at hdu'
            have h1 : d = du' := WithTop.coe_inj.mp (Option.some.inj hdu')
            rw [hdy'] at hdn
            have h2 : dn = ((dy' : ℚ) : WithTop ℚ) := (Option.some.inj hdn).symm
            rw [h2, WithTop.coe_lt_coe] at hlt
            rw [← h1] at hled
            linarith
      obtain ⟨dist', prev', q', heq', R', mono', sfix', qsub', len', esr'⟩ :=
        ih (fun p hp => hsub p (List.mem_cons_of_mem _ hp)) _ _ _ R1
      refine ⟨dist', prev', q', by rw [heqn]; exact heq', R', ?_, ?_, ?_, ?_, ?_⟩
      · -- mono composition
        intro x dx' h
        obtain ⟨dx1, hdx1, hle1⟩ := mono' x dx' h
        by_cases hxy : x = y
        · subst hxy
          rw [alookup_aset_self] at hdx1
          have := Option.some.inj hdx1
          refine ⟨dn, hdn, ?_⟩
          rw [← this] at hle1
          exact le_trans hle1 (le_of_lt hlt)
        · rw [alookup_aset_ne _ _ _ _ hxy] at hdx1
          exact ⟨dx1, hdx1, hle1⟩
      · -- settled fixed
        intro x hxS
        have hxy : x ≠ y := fun he => hyS (he ▸ hxS)
        rw [sfix' x hxS, alookup_aset_ne _ _ _ _ hxy]
      · -- queue grows
        intro e he
        exact qsub' e (List.mem_append.mpr (Or.inl he))
      · -- length
        have : (q ++ [(d + w, y)]).length = q.length + 1 := by
          rw [List.length_append]
          rfl
        rw [this] at len'
        simpa using Nat.le_trans len' (by omega)
      · -- processed edges relaxed
        intro y0 w0 hy0
        rcases List.mem_cons.mp hy0 with hy0 | hy0
        · obtain ⟨h1, h2⟩ := Prod.mk.injEq .. ▸ hy0
          subst h1
          subst h2
          have hyd' : y0 ∈ akeys dist' := by rw [R'.keys_dist]; exact hyg
          obtain ⟨dy', hdy'⟩ := (mem_akeys_iff_isSome _ _).mp hyd'
          obtain ⟨dx1, hdx1, hle1⟩ := mono' y0 dy' hdy'
          rw [alookup_aset_self] at hdx1
          have := Option.some.inj hdx1
          refine ⟨dy', hdy', ?_⟩
          rw [← this] at hle1
          exact hle1
        · exact esr' y0 w0 hy0
    · -- no-improvement branch
      have heqn : relaxEdges ((y, w) :: es2) d u dist prev q =
          relaxEdges es2 d u dist prev q := by
        simp only [relaxEdges]
        rw [hdn]
        dsimp only
        rw [if_neg hlt]
      obtain ⟨dist', prev', q', heq', R', mono', sfix', qsub', len', esr'⟩ :=
        ih (fun p hp => hsub p (List.mem_cons_of_mem _ hp)) _ _ _ R
      refine ⟨dist', prev', q', by rw [heqn]; exact heq', R', mono', sfix', qsub',
        by simpa using Nat.le_trans len' (by omega), ?_⟩
      intro y0 w0 hy0
      rcases List.mem_cons.mp hy0 with hy0 | hy0
      · obtain ⟨h1, h2⟩ := Prod.mk.injEq .. ▸ hy0
        subst h1
        subst h2
        have hyd' : y0 ∈ akeys dist' := by rw [R'.keys_dist]; exact hyg
        obtain ⟨dy', hdy'⟩ := (mem_akeys_iff_isSome _ _).mp hyd'
        obtain ⟨dx1, hdx1, hle1⟩ := mono' y0 dy' hdy'
        rw [hdn] at hdx1
        have := Option.some.inj hdx1
        refine ⟨dy', hdy', ?_⟩
        rw [← this] at hle1
        exact le_trans hle1 (not_lt.mp hlt)
      · exact esr' y0 w0 hy0

theorem walk_repair {g : Graph} {start : Node} {S' : List Node} {dist : DistTable}
    {q : Queue} (hkeys : akeys dist = akeys g)
    (hse : ∀ x ∈ S', ∀ es, alookup g x = some es → ∀ y (w : ℚ), (y, w) ∈ es →
      ∃ dx dy, alookup dist x = some dx ∧ alookup dist y = some dy ∧
        dy ≤ dx + ((w : ℚ) : WithTop ℚ))
    (hqc : ∀ x ∈ akeys g, x ∉ S' → ∀ dx : ℚ,
      alookup dist x = some ((dx : ℚ) : WithTop ℚ) → (dx, x) ∈ q) :
    ∀ (rest2 rest1 : List Node) (c1 c2 e0 : ℚ),
      costFrom g start rest1 = some c1 →
      costFrom g (endOf start rest1) rest2 = some c2 →
      alookup dist (endOf start rest1) = some ((e0 : ℚ) : WithTop ℚ) → e0 ≤ c1 →
      (∃ dv, alookup dist (endOf start (rest1 ++ rest2)) = some dv ∧
        dv ≤ ((c1 + c2 : ℚ) : WithTop ℚ)) ∨
      (∃ ra rb : List Node, ∃ ca dd : ℚ, rest1 ++ rest2 = ra ++ rb ∧
        costFrom g start ra = some ca ∧ endOf start ra ∉ S' ∧
        (dd, endOf start ra) ∈ q ∧ dd ≤ ca) := by
  intro rest2
  induction rest2 with
  | nil =>
    intro rest1 c1 c2 e0 h1 h2 he he1
    left
    have hc2 : c2 = 0 := by
      have : (some (0 : ℚ) : Option ℚ) = some c2 := h2
      exact (Option.some.inj this).symm
    refine ⟨((e0 : ℚ) : WithTop ℚ), by rw [List.append_nil]; exact he, ?_⟩
    rw [hc2, add_zero, WithTop.coe_le_coe]
    exact he1
  | cons z r2 ih =>
    intro rest1 c1 c2 e0 h1 h2 he he1
    obtain ⟨w, c2', hw, hc2', hc2eq⟩ : ∃ w c2' : ℚ,
        edgeWeight g (endOf start rest1) z = some w ∧
        costFrom g z r2 = some c2' ∧ c2 = w + c2' := by
      simp only [costFrom] at h2
      rcases hw : edgeWeight g (endOf start rest1) z with _ | w <;> rw [hw] at h2
      · simp at h2
      · rcases hc : costFrom g z r2 with _ | c2' <;> rw [hc] at h2
        · simp at h2
        · exact ⟨w, c2', rfl, rfl, (Option.some.inj h2).symm⟩
    by_cases hx0 : endOf start rest1 ∈ S'
    · obtain ⟨esX, hesX, hmemX⟩ := mem_of_edgeWeight hw
      obtain ⟨dx, dz, hdx, hdz, hlez⟩ := hse _ hx0 esX hesX z w hmemX
      rw [he] at hdx
      have hdxe : dx = ((e0 : ℚ) : WithTop ℚ) := (Option.some.inj hdx).symm
      rw [hdxe] at hlez
      have hne : dz ≠ ⊤ := by
        intro htop
        rw [htop, top_le_iff] at hlez
        have h3 : ((e0 : ℚ) : WithTop ℚ) + ((w : ℚ) : WithTop ℚ) ≠ ⊤ := by
          rw [← WithTop.coe_add]
          exact WithTop.coe_ne_top
        exact h3 hlez
      obtain ⟨ez, hez⟩ := WithTop.ne_top_iff_exists.mp hne
      have hezle : ez ≤ e0 + w := by
        rw [← hez, ← WithTop.coe_add, WithTop.coe_le_coe] at hlez
        exact hlez
      have hcost1' : costFrom g start (rest1 ++ [z]) = some (c1 + w) := costFrom_snoc h1 hw
      have hend1' : endOf start (rest1 ++ [z]) = z := by
        rw [endOf_append]
        rfl
      have ih2 := ih (rest1 ++ [z]) (c1 + w) c2' ez hcost1'
        (by rw [hend1']; exact hc2')
        (by rw [hend1', hez]; exact hdz)
        (by linarith)
      rw [List.append_assoc, List.singleton_append] at ih2
      have harith : (c1 + w) + c2' = c1 + c2 := by
        rw [hc2eq]
        ring
      rw [harith] at ih2
      exact ih2
    · right
      have hx0g : endOf start rest1 ∈ akeys g := by
        rw [← hkeys]
        exact (mem_akeys_iff_isSome _ _).mpr ⟨_, he⟩
      exact ⟨rest1, z :: r2, c1, e0, rfl, h1, hx0, hqc _ hx0g hx0 e0 he, he1⟩

theorem dinv_pop_settled {g : Graph} {start : Node} {S : List Node} {dist : DistTable}
    {prev : PrevTable} {q : Queue} {d : ℚ} {u : Node} {rest : Queue}
    (I : DInv g start S dist prev q) (hpop : popMin q = some ((d, u), rest))
    (huS : u ∈ S) : DInv g start S dist prev rest := by
  refine ⟨I.keys_dist, I.keys_prev, I.dist_start, I.prev_start, ?_, I.reach, I.settled_mem,
    I.settled_opt, I.settled_edges, ?_, ?_, I.prev_edge, I.prev_reached, I.no_cycle⟩
  · intro e x hx
    exact I.q_mem e x (popMin_subset hpop _ hx)
  · intro x hxg hxS dx hdx
    have hmem := I.queue_cover x hxg hxS dx hdx
    have h2 := (popMin_perm hpop).subset hmem
    rcases List.mem_cons.mp h2 with hh | hh
    · exfalso
      have hxu : x = u := (Prod.ext_iff.mp hh).2
      exact hxS (hxu ▸ huS)
    · exact hh
  · intro rest0 c hc
    rcases I.frontier rest0 c hc with h | ⟨r1, r2, c1, dd, heq, hc1, hnS, hmem, hddle⟩
    · exact Or.inl h
    · right
      refine ⟨r1, r2, c1, dd, heq, hc1, hnS, ?_, hddle⟩
      have h2 := (popMin_perm hpop).subset hmem
      rcases List.mem_cons.mp h2 with hh | hh
      · exfalso
        have hxu : endOf start r1 = u := (Prod.ext_iff.mp hh).2
        exact hnS (hxu ▸ huS)
      · exact hh

theorem stale_implies_settled {g : Graph} {start : Node} {S : List Node}
    {dist : DistTable} {prev : PrevTable} {q : Queue} {d : ℚ} {u : Node} {rest : Queue}
    {du : WithTop ℚ}
    (I : DInv g start S dist prev q) (hpop : popMin q = some ((d, u), rest))
    (hdu : alookup dist u = some du) (hstale : du < ((d : ℚ) : WithTop ℚ)) : u ∈ S := by
  by_contra huS
  obtain ⟨hug, hd0, dx, hdx, hdxle⟩ := I.q_mem d u (popMin_mem hpop)
  have hne : du ≠ ⊤ := ne_top_of_lt hstale
  obtain ⟨r, hr⟩ := WithTop.ne_top_iff_exists.mp hne
  have hq := I.queue_cover u hug huS r (by rw [← hr] at hdu; exact hdu)
  have hle : d ≤ r := qLE_fst (popMin_le hpop _ hq)
  rw [← hr, WithTop.coe_lt_coe] at hstale
  linarith

theorem settle_step {g : Graph} {start : Node} {S : List Node} {dist : DistTable}
    {prev : PrevTable} {q : Queue} {d : ℚ} {u : Node} {rest : Queue}
    (hnn : NonnegG g) (hwf : WFG g)
    (I : DInv g start S dist prev q) (hpop : popMin q = some ((d, u), rest))
    (hdu : alookup dist u = some ((d : ℚ) : WithTop ℚ)) (_huS : u ∉ S)
    {esU : EdgeList} (hesU : alookup g u = some esU) :
    ∃ dist' prev' q', relaxEdges esU d u dist prev rest = some (dist', prev', q') ∧
      DInv g start (u :: S) dist' prev' q' ∧ q'.length ≤ rest.length + esU.length := by
  have hqm := I.q_mem d u (popMin_mem hpop)
  have hug : u ∈ akeys g := hqm.1
  have hd0 : 0 ≤ d := hqm.2.1
  have u_opt : ∀ (rest0 : List Node) (c : ℚ), costFrom g start rest0 = some c →
      endOf start rest0 = u → d ≤ c := by
    intro rest0 c hc hend
    rcases I.frontier rest0 c hc with ⟨dv, hdv, hdvle⟩ |
      ⟨r1, r2, c1, dd, heq0, hc1, hnS, hmem, hddle⟩
    · rw [hend, hdu] at hdv
      have h3 : ((d : ℚ) : WithTop ℚ) = dv := Option.some.inj hdv
      rw [← h3, WithTop.coe_le_coe] at hdvle
      exact hdvle
    · have hdd : d ≤ dd := qLE_fst (popMin_le hpop _ hmem)
      rw [heq0] at hc
      obtain ⟨c1', c2', hc1', hc2', hceq⟩ := costFrom_split hc
      rw [hc1] at hc1'
      have hce : c1 = c1' := Option.some.inj hc1'
      have hc20 : 0 ≤ c2' := costFrom_nonneg hnn _ _ _ hc2'
      rw [hceq, ← hce]
      linarith
  have RS : RState g start u d (u :: S) dist prev rest := by
    refine ⟨I.keys_dist, I.keys_prev, I.dist_start, I.prev_start, hdu,
      List.mem_cons_self _ _, ?_, I.reach, ?_, ?_, ?_, I.prev_edge, I.prev_reached,
      I.no_cycle⟩
    · intro e x hx
      exact I.q_mem e x (popMin_subset hpop _ hx)
    · intro x hx
      rcases List.mem_cons.mp hx with hx | hx
      · rw [hx]
        exact hug
      · exact I.settled_mem x hx
    · intro x hx rest0 c hc hend
      rcases List.mem_cons.mp hx with hx | hx
      · rw [hx] at hend ⊢
        refine ⟨_, hdu, ?_⟩
        rw [WithTop.coe_le_coe]
        exact u_opt rest0 c hc hend
      · exact I.settled_opt x hx rest0 c hc hend
    · intro x hxg hxS dx hdx
      have hxu : x ≠ u := fun he => hxS (he ▸ List.mem_cons_self u S)
      have hxS2 : x ∉ S := fun h2 => hxS (List.mem_cons_of_mem _ h2)
      have hmem := I.queue_cover x hxg hxS2 dx hdx
      have h2 := (popMin_perm hpop).subset hmem
      rcases List.mem_cons.mp h2 with hh | hh
      · exact absurd (Prod.ext_iff.mp hh).2 hxu
      · exact hh
  obtain ⟨dist', prev', q', heq', R', mono', sfix', qsub', len', esr'⟩ :=
    relax_spec hnn hwf hd0 hesU esU (fun p hp => hp) dist prev rest RS
  have hdist'u : alookup dist' u = some ((d : ℚ) : WithTop ℚ) := by
    rw [sfix' u (List.mem_cons_self _ _)]
    exact hdu
  have hse' : ∀ x ∈ u :: S, ∀ es, alookup g x = some es → ∀ y (w : ℚ), (y, w) ∈ es →
      ∃ dx dy, alookup dist' x = some dx ∧ alookup dist' y = some dy ∧
        dy ≤ dx + ((w : ℚ) : WithTop ℚ) := by
    intro x hx es hes y w hyw
    rcases List.mem_cons.mp hx with hx | hx
    · rw [hx] at hes ⊢
      rw [hesU] at hes
      have hese : es = esU := (Option.some.inj hes).symm
      obtain ⟨dy, hdy, hdyle⟩ := esr' y w (hese ▸ hyw)
      refine ⟨_, dy, hdist'u, hdy, ?_⟩
      rw [← WithTop.coe_add]
      exact hdyle
    · obtain ⟨dx, dy, hdx, hdy, hdyle⟩ := I.settled_edges x hx es hes y w hyw
      have hxfix := sfix' x (List.mem_cons_of_mem _ hx)
      have hyg : y ∈ akeys g := hwf.2.2 (x, es) (alookup_mem hes) (y, w) hyw
      have hyd' : y ∈ akeys dist' := by
        rw [R'.keys_dist]
        exact hyg
      obtain ⟨dy', hdy'⟩ := (mem_akeys_iff_isSome _ _).mp hyd'
      obtain ⟨dy'', hdy'', hle''⟩ := mono' y dy' hdy'
      rw [hdy] at hdy''
      have hde : dy = dy'' := Option.some.inj hdy''
      refine ⟨dx, dy', by rw [hxfix]; exact hdx, hdy', ?_⟩
      rw [← hde] at hle''
      exact le_trans hle'' hdyle
  refine ⟨dist', prev', q', heq', ?_, len'⟩
  refine ⟨R'.keys_dist, R'.keys_prev, R'.dist_start, R'.prev_start, R'.q_mem, R'.reach,
    R'.settled_mem, R'.settled_opt, hse', R'.queue_cover, ?_, R'.prev_edge,
    R'.prev_reached, R'.no_cycle⟩
  intro rest0 c hc
  rcases I.frontier rest0 c hc with ⟨dv, hdv, hdvle⟩ |
    ⟨r1, r2, c1, dd, heq0, hc1, hnS, hmem, hddle⟩
  · left
    have hvmem : endOf start rest0 ∈ akeys dist' := by
      rw [R'.keys_dist, ← I.keys_dist]
      exact (mem_akeys_iff_isSome _ _).mpr ⟨dv, hdv⟩
    obtain ⟨dv', hdv'⟩ := (mem_akeys_iff_isSome _ _).mp hvmem
    obtain ⟨dv'', hdv'', hle''⟩ := mono' _ dv' hdv'
    rw [hdv] at hdv''
    have hde : dv = dv'' := Option.some.inj hdv''
    exact ⟨dv', hdv', le_trans hle'' (hde ▸ hdvle)⟩
  · by_cases hx0u : endOf start r1 = u
    · rw [heq0] at hc
      obtain ⟨c1', c2', hc1', hc2', hceq⟩ := costFrom_split hc
      rw [hc1] at hc1'
      have hce : c1 = c1' := Option.some.inj hc1'
      have hdd : d ≤ dd := qLE_fst (popMin_le hpop _ hmem)
      have hwalk := walk_repair R'.keys_dist hse' R'.queue_cover r2 r1 c1 c2' d hc1
        hc2' (by rw [hx0u]; exact hdist'u) (by linarith)
      rw [heq0]
      have hcc : c = c1 + c2' := by
        rw [hceq, ← hce]
      rcases hwalk with ⟨dv, hdv, hdvle⟩ | hrb
      · left
        refine ⟨dv, hdv, ?_⟩
        rw [hcc]
        exact hdvle
      · right
        exact hrb
    · right
      have hmem2 := (popMin_perm hpop).subset hmem
      rcases List.mem_cons.mp hmem2 with hh | hh
      · exact absurd (Prod.ext_iff.mp hh).2 hx0u
      · refine ⟨r1, r2, c1, dd, heq0, hc1, ?_, qsub' _ hh, hddle⟩
        intro hx
        rcases List.mem_cons.mp hx with hx | hx
        · exact hx0u hx
        · exact hnS hx

theorem relax_no_change :
    ∀ (es : EdgeList) (d : ℚ) (u : Node) (dist : DistTable) (prev : PrevTable) (q : Queue),
      (∀ y (w : ℚ), (y, w) ∈ es → ∃ dy, alookup dist y = some dy ∧
        dy ≤ ((d + w : ℚ) : WithTop ℚ)) →
      relaxEdges es d u dist prev q = some (dist, prev, q) := by
  intro es
  induction es with
  | nil =>
    intro d u dist prev q _
    rfl
  | cons p es2 ih =>
    obtain ⟨y, w⟩ := p
    intro d u dist prev q h
    obtain ⟨dy, hdy, hle⟩ := h y w (List.mem_cons_self _ _)
    have heqn : relaxEdges ((y, w) :: es2) d u dist prev q =
        relaxEdges es2 d u dist prev q := by
      simp only [relaxEdges]
      rw [hdy]
      dsimp only
      rw [if_neg (not_lt.mpr hle)]
    rw [heqn]
    exact ih d u dist prev q (fun y0 w0 h0 => h y0 w0 (List.mem_cons_of_mem _ h0))

theorem sum_filter_excl {f : Node → ℕ} {u : Node} {S : List Node} :
    ∀ l : List Node, l.Nodup → u ∈ l → u ∉ S →
      ((l.filter (fun x => decide (x ∉ (u :: S)))).map f).sum + f u
        = ((l.filter (fun x => decide (x ∉ S))).map f).sum := by
  intro l
  induction l with
  | nil =>
    intro _ h _
    exact absurd h (List.not_mem_nil _)
  | cons a l ih =>
    intro hnd hmem huS
    rw [List.nodup_cons] at hnd
    rcases List.mem_cons.mp hmem with hau | hul
    · rw [List.filter_cons_of_neg (by simp [hau]),
        List.filter_cons_of_pos (by rw [← hau]; simp [huS])]
      have h3 : l.filter (fun x => decide (x ∉ (u :: S))) =
          l.filter (fun x => decide (x ∉ S)) := by
        apply List.filter_congr
        intro x hx
        have hxu : x ≠ u := fun he => hnd.1 (hau ▸ he ▸ hx)
        simp [hxu]
      rw [h3, hau]
      simp only [List.map_cons, List.sum_cons]
      omega
    · have hau : a ≠ u := fun he => hnd.1 (he ▸ hul)
      by_cases haS : a ∈ S
      · rw [List.filter_cons_of_neg (by simp [haS]),
          List.filter_cons_of_neg (by simp [haS])]
        exact ih hnd.2 hul huS
      · rw [List.filter_cons_of_pos (by simp [haS, hau]),
          List.filter_cons_of_pos (by simp [haS])]
        simp only [List.map_cons, List.sum_cons]
        have := ih hnd.2 hul huS
        omega

theorem unsettledDeg_cons {g : Graph} {u : Node} {S : List Node}
    (hnd : (akeys g).Nodup) (hug : u ∈ akeys g) (huS : u ∉ S) :
    unsettledDeg g (u :: S) + outdeg g u = unsettledDeg g S := by
  unfold unsettledDeg
  exact sum_filter_excl (akeys g) hnd hug huS

theorem dijkstra_master {g : Graph} {start : Node} (hnn : NonnegG g) (hwf : WFG g) :
    ∀ (n : ℕ) (S : List Node) (dist : DistTable) (prev : PrevTable) (q : Queue),
      DInv g start S dist prev q → loopMeasure g S q ≤ n →
      ∃ dist' prev' S', dijkstraLoop g n dist prev q = DOut.done dist' prev' ∧
        DInv g start S' dist' prev' [] := by
  intro n
  induction n with
  | zero =>
    intro S dist prev q I hm
    have hq : q = [] := by
      have h2 : q.length = 0 := by
        unfold loopMeasure at hm
        omega
      exact List.length_eq_zero.mp h2
    subst hq
    exact ⟨dist, prev, S, rfl, I⟩
  | succ n ih =>
    intro S dist prev q I hm
    rcases hpop : popMin q with _ | me
    · have hq : q = [] := (popMin_eq_none q).mp hpop
      subst hq
      refine ⟨dist, prev, S, ?_, I⟩
      show dijkstraLoop g (n + 1) dist prev [] = _
      simp only [dijkstraLoop, popMin]
    · obtain ⟨⟨d, u⟩, rest⟩ := me
      have hug : u ∈ akeys g := (I.q_mem d u (popMin_mem hpop)).1
      have hud : u ∈ akeys dist := by
        rw [I.keys_dist]
        exact hug
      obtain ⟨du, hdu⟩ := (mem_akeys_iff_isSome _ _).mp hud
      have hqlen : q.length = rest.length + 1 := popMin_length hpop
      by_cases hstale : du < ((d : ℚ) : WithTop ℚ)
      · have heqn : dijkstraLoop g (n + 1) dist prev q =
            dijkstraLoop g n dist prev rest := by
          simp only [dijkstraLoop]
          rw [hpop]
          dsimp only
          rw [hdu]
          dsimp only
          rw [if_pos hstale]
        have huS := stale_implies_settled I hpop hdu hstale
        have I2 := dinv_pop_settled I hpop huS
        have hm2 : loopMeasure g S rest ≤ n := by
          unfold loopMeasure at hm ⊢
          omega
        rw [heqn]
        exact ih S dist prev rest I2 hm2
      · have hdle : du ≤ ((d : ℚ) : WithTop ℚ) := by
          obtain ⟨_, _, dx, hdx, hdxle⟩ := I.q_mem d u (popMin_mem hpop)
          rw [hdu] at hdx
          rw [Option.some.inj hdx]
          exact hdxle
        have hdeq : du = ((d : ℚ) : WithTop ℚ) := le_antisymm hdle (not_lt.mp hstale)
        obtain ⟨esU, hesU⟩ := (mem_akeys_iff_isSome _ _).mp hug
        by_cases huS : u ∈ S
        · have hnochange : relaxEdges esU d u dist prev rest = some (dist, prev, rest) := by
            apply relax_no_change
            intro y w hyw
            obtain ⟨dx, dy, hdx, hdy, hdyle⟩ := I.settled_edges u huS esU hesU y w hyw
            rw [hdu] at hdx
            have h3 : du = dx := Option.some.inj hdx
            refine ⟨dy, hdy, ?_⟩
            rw [← h3, hdeq, ← WithTop.coe_add] at hdyle
            exact hdyle
          have heqn : dijkstraLoop g (n + 1) dist prev q =
              dijkstraLoop g n dist prev rest := by
            simp only [dijkstraLoop]
            rw [hpop]
            dsimp only
            rw [hdu]
            dsimp only
            rw [if_neg hstale, hesU]
            dsimp only
            rw [hnochange]
          have I2 := dinv_pop_settled I hpop huS
          have hm2 : loopMeasure g S rest ≤ n := by
            unfold loopMeasure at hm ⊢
            omega
          rw [heqn]
          exact ih S dist prev rest I2 hm2
        · obtain ⟨dist', prev', q', hrel, I', hqlen'⟩ :=
            settle_step hnn hwf I hpop (hdeq ▸ hdu) huS hesU
          have heqn : dijkstraLoop g (n + 1) dist prev q =
              dijkstraLoop g n dist' prev' q' := by
            simp only [dijkstraLoop]
            rw [hpop]
            dsimp only
            rw [hdu]
            dsimp only
            rw [if_neg hstale, hesU]
            dsimp only
            rw [hrel]
          have houtdeg : outdeg g u = esU.length := by
            unfold outdeg
            rw [hesU]
          have hdeg := unsettledDeg_cons hwf.1 hug huS
          have hm2 : loopMeasure g (u :: S) q' ≤ n := by
            unfold loopMeasure at hm ⊢
            omega
          rw [heqn]
          exact ih (u :: S) dist' prev' q' I' hm2

theorem akeys_map_pair {β : Type} (l : List Node) (f : Node → β) :
    akeys (l.map fun n => (n, f n)) = l := by
  induction l with
  | nil => rfl
  | cons a l ih =>
    rw [List.map_cons, akeys_cons, ih]

theorem alookup_map_pair {β : Type} (l : List Node) (f : Node → β) (x : Node) :
    alookup (l.map fun n => (n, f n)) x = if x ∈ l then some (f x) else none := by
  induction l with
  | nil => simp [alookup]
  | cons a l ih =>
    rw [List.map_cons]
    by_cases hax : a = x
    · subst hax
      simp [alookup]
    · simp only [alookup, if_neg hax, ih, List.mem_cons]
      by_cases hx : x ∈ l
      · simp [hx]
      · have hxa : x ≠ a := fun he => hax he.symm
        simp [hx, hxa]

theorem initDist_alookup (g : Graph) (start x : Node) :
    alookup (initDist g start) x =
      if x = start then some ((0 : ℚ) : WithTop ℚ)
      else if x ∈ akeys g then some (⊤ : WithTop ℚ) else none := by
  unfold initDist
  by_cases hx : x = start
  · rw [hx, if_pos rfl]
    exact alookup_aset_self _ _ _
  · rw [if_neg hx, alookup_aset_ne _ _ _ _ hx, alookup_map_pair]

theorem initDist_akeys {g : Graph} {start : Node} (hstart : start ∈ akeys g) :
    akeys (initDist g start) = akeys g := by
  unfold initDist
  rw [akeys_aset_of_mem _ (by rw [akeys_map_pair]; exact hstart), akeys_map_pair]

theorem initPrev_akeys (g : Graph) : akeys (initPrev g) = akeys g :=
  akeys_map_pair _ _

theorem initPrev_alookup (g : Graph) (x : Node) :
    alookup (initPrev g) x = if x ∈ akeys g then some none else none :=
  alookup_map_pair _ _ _

theorem dinv_init {g : Graph} {start : Node} (hstart : start ∈ akeys g) :
    DInv g start [] (initDist g start) (initPrev g) [((0 : ℚ), start)] := by
  have hds : alookup (initDist g start) start = some ((0 : ℚ) : WithTop ℚ) := by
    rw [initDist_alookup, if_pos rfl]
  have hfin : ∀ x (dx : ℚ), alookup (initDist g start) x =
      some ((dx : ℚ) : WithTop ℚ) → x = start ∧ dx = 0 := by
    intro x dx hx
    rw [initDist_alookup] at hx
    by_cases h1 : x = start
    · rw [if_pos h1] at hx
      have h2 := Option.some.inj hx
      exact ⟨h1, (WithTop.coe_inj.mp h2).symm⟩
    · rw [if_neg h1] at hx
      by_cases h2 : x ∈ akeys g
      · rw [if_pos h2] at hx
        exact absurd (Option.some.inj hx).symm WithTop.coe_ne_top
      · rw [if_neg h2] at hx
        exact Option.noConfusion hx
  refine ⟨initDist_akeys hstart, initPrev_akeys g, hds, ?_, ?_, ?_, ?_, ?_, ?_, ?_, ?_,
    ?_, ?_, ?_⟩
  · rw [initPrev_alookup, if_pos hstart]
  · intro d x hx
    have h2 : d = 0 ∧ x = start := by
      simpa [Prod.ext_iff] using hx
    rw [h2.1, h2.2]
    exact ⟨hstart, le_refl _, _, hds, le_refl _⟩
  · intro x dx hx
    obtain ⟨h1, h2⟩ := hfin x dx hx
    rw [h1, h2]
    exact ⟨[], rfl, rfl⟩
  · intro x hx
    exact absurd hx (List.not_mem_nil _)
  · intro x hx
    exact absurd hx (List.not_mem_nil _)
  · intro x hx
    exact absurd hx (List.not_mem_nil _)
  · intro x _ _ dx hx
    obtain ⟨h1, h2⟩ := hfin x dx hx
    rw [h1, h2]
    exact List.mem_singleton.mpr rfl
  · intro rest c hc
    right
    exact ⟨[], rest, 0, 0, rfl, rfl, List.not_mem_nil _, List.mem_singleton.mpr rfl,
      le_refl _⟩
  · intro v u hv
    rw [initPrev_alookup] at hv
    by_cases h2 : v ∈ akeys g
    · rw [if_pos h2] at hv
      exact Option.noConfusion (Option.some.inj hv)
    · rw [if_neg h2] at hv
      exact Option.noConfusion hv
  · intro v dv hv hvs
    exact absurd (hfin v dv hv).1 hvs
  · intro x n h
    have h2 : iterPrev (initPrev g) (n + 1) x = none := by
      show (match alookup (initPrev g) x with
        | some (some u) => iterPrev (initPrev g) n u
        | _ => none) = none
      rw [initPrev_alookup]
      by_cases hx : x ∈ akeys g
      · rw [if_pos hx]
      · rw [if_neg hx]
    rw [h2] at h
    exact Option.noConfusion h

theorem dijkstraLoop_succ_eq (g : Graph) (n : ℕ) (dist : DistTable) (prev : PrevTable)
    (q : Queue) :
    dijkstraLoop g (n + 1) dist prev q =
      match popMin q with
      | none => DOut.done dist prev
      | some ((current_distance, current_node), rest) =>
        match alookup dist current_node with
        | none => DOut.keyError
        | some dcur =>
          if dcur < ((current_distance : ℚ) : WithTop ℚ) then
            dijkstraLoop g n dist prev rest
          else
            match alookup g current_node with
            | none => DOut.keyError
            | some es =>
              match relaxEdges es current_distance current_node dist prev rest with
              | none => DOut.keyError
              | some (d2, p2, q2) => dijkstraLoop g n d2 p2 q2 := rfl

theorem loop_done_succ {g : Graph} :
    ∀ (n : ℕ) (dist : DistTable) (prev : PrevTable) (q : Queue) (a : DistTable)
      (b : PrevTable), dijkstraLoop g n dist prev q = DOut.done a b →
      dijkstraLoop g (n + 1) dist prev q = DOut.done a b := by
  intro n
  induction n with
  | zero =>
    intro dist prev q a b h
    by_cases hq : q.isEmpty
    · have hq' : q = [] := List.isEmpty_iff.mp hq
      subst hq'
      have h0 : DOut.done dist prev = DOut.done a b := by
        simpa [dijkstraLoop] using h
      rw [dijkstraLoop_succ_eq]
      exact h0
    · exfalso
      simp [dijkstraLoop, hq] at h
  | succ n ih =>
    intro dist prev q a b h
    rw [dijkstraLoop_succ_eq] at h
    rw [dijkstraLoop_succ_eq]
    rcases hpop : popMin q with _ | ⟨⟨d, u⟩, rest⟩
    · rw [hpop] at h
      dsimp only at h ⊢
      exact h
    · rw [hpop] at h
      dsimp only at h ⊢
      rcases hdu : alookup dist u with _ | du
      · rw [hdu] at h
        dsimp only at h ⊢
        exact h
      · rw [hdu] at h
        dsimp only at h ⊢
        by_cases hst : du < ((d : ℚ) : WithTop ℚ)
        · rw [if_pos hst] at h ⊢
          exact ih _ _ _ _ _ h
        · rw [if_neg hst] at h ⊢
          rcases hes : alookup g u with _ | es
          · rw [hes] at h
            dsimp only at h ⊢
            exact h
          · rw [hes] at h
            dsimp only at h ⊢
            rcases hrel : relaxEdges es d u dist prev rest with _ | ⟨d2, p2, q2⟩
            · rw [hrel] at h
              dsimp only at h ⊢
              exact h
            · rw [hrel] at h
              dsimp only at h ⊢
              exact ih _ _ _ _ _ h

theorem loop_done_le {g : Graph} {n m : ℕ} (hnm : n ≤ m) {dist : DistTable}
    {prev : PrevTable} {q : Queue} {a : DistTable} {b : PrevTable}
    (h : dijkstraLoop g n dist prev q = DOut.done a b) :
    dijkstraLoop g m dist prev q = DOut.done a b := by
  induction m with
  | zero =>
    have : n = 0 := by omega
    rw [← this]
    exact h
  | succ m ih =>
    rcases Nat.lt_or_ge n (m + 1) with h2 | h2
    · exact loop_done_succ m _ _ _ _ _ (ih (by omega))
    · have : n = m + 1 := by omega
      rw [← this]
      exact h

theorem sum_outdeg_keys : ∀ g : Graph, (akeys g).Nodup →
    ((akeys g).map (outdeg g)).sum = (g.map (fun e => e.2.length)).sum := by
  intro g
  induction g with
  | nil =>
    intro
    rfl
  | cons e rest ih =>
    intro hnd
    obtain ⟨k, es⟩ := e
    rw [akeys_cons] at hnd ⊢
    rw [List.nodup_cons] at hnd
    rw [List.map_cons, List.map_cons, List.sum_cons, List.sum_cons]
    have h1 : outdeg ((k, es) :: rest) k = es.length := by
      unfold outdeg
      simp [alookup]
    have h2 : (akeys rest).map (outdeg ((k, es) :: rest)) =
        (akeys rest).map (outdeg rest) := by
      apply List.map_congr_left
      intro a ha
      have hak : k ≠ a := fun he => hnd.1 (he ▸ ha)
      unfold outdeg
      rw [show alookup ((k, es) :: rest) a = alookup rest a from by
        simp [alookup, hak]]
    rw [h1, h2, ih hnd.2]

theorem unsettledDeg_nil {g : Graph} (hnd : (akeys g).Nodup) :
    unsettledDeg g [] = (g.map (fun e => e.2.length)).sum := by
  unfold unsettledDeg
  have hfil : (akeys g).filter (fun x => decide (x ∉ ([] : List Node))) = akeys g := by
    rw [List.filter_eq_self]
    intro a _
    simp
  rw [hfil]
  exact sum_outdeg_keys g hnd

theorem dijkstra_fuel_done {g : Graph} {start : Node} (hnn : NonnegG g) (hwf : WFG g)
    (hstart : start ∈ akeys g) :
    ∃ dist prev S, dijkstra g start (dijkstraFuel g) = DOut.done dist prev ∧
      DInv g start S dist prev [] := by
  have I0 := dinv_init hstart
  have hm : loopMeasure g [] [((0 : ℚ), start)] ≤ dijkstraFuel g := by
    unfold loopMeasure dijkstraFuel
    rw [unsettledDeg_nil hwf.1]
    simp
  obtain ⟨dist', prev', S', hdone, I'⟩ :=
    dijkstra_master hnn hwf (dijkstraFuel g) [] _ _ _ I0 hm
  exact ⟨dist', prev', S', hdone, I'⟩

theorem dijkstra_done_dinv {g : Graph} {start : Node} {fuel : ℕ} {dist : DistTable}
    {prev : PrevTable} (hnn : NonnegG g) (hwf : WFG g) (hstart : start ∈ akeys g)
    (hrun : dijkstra g start fuel = DOut.done dist prev) :
    ∃ S, DInv g start S dist prev [] := by
  obtain ⟨dist', prev', S', hdone, I'⟩ := dijkstra_fuel_done hnn hwf hstart
  have hrun2 : dijkstraLoop g fuel (initDist g start) (initPrev g) [((0 : ℚ), start)] =
      DOut.done dist prev := hrun
  have hdone2 : dijkstraLoop g (dijkstraFuel g) (initDist g start) (initPrev g)
      [((0 : ℚ), start)] = DOut.done dist' prev' := hdone
  have h1 := loop_done_le (le_max_left fuel (dijkstraFuel g)) hrun2
  have h2 := loop_done_le (le_max_right fuel (dijkstraFuel g)) hdone2
  rw [h1] at h2
  injection h2 with hd hp
  refine ⟨S', ?_⟩
  rw [hd, hp]
  exact I'

theorem recon_mono {prev : PrevTable} :
    ∀ (n m : ℕ), n ≤ m → ∀ (v : Node) (p : List Node),
      reconstruct_path prev n v = some p → reconstruct_path prev m v = some p := by
  intro n
  induction n with
  | zero =>
    intro m _ v p h
    exact absurd h (by simp [reconstruct_path])
  | succ n ih =>
    intro m hm v p h
    obtain ⟨m', rfl⟩ : ∃ m', m = m' + 1 := ⟨m - 1, by omega⟩
    rcases hp : alookup prev v with _ | pv
    · exfalso
      simp [reconstruct_path, hp] at h
    · rcases pv with _ | u
      · have h2 : p = [v] := by
          simp [reconstruct_path, hp] at h
          exact h.symm
        rw [h2]
        simp [reconstruct_path, hp]
      · have h2 : (reconstruct_path prev n u).map (fun p0 => p0 ++ [v]) = some p := by
          simpa [reconstruct_path, hp] using h
        obtain ⟨pu, hpu, hpeq⟩ := Option.map_eq_some'.mp h2
        have h3 := ih m' (by omega) u pu hpu
        show (match alookup prev v with
          | Option.none => Option.none
          | some Option.none => some [v]
          | some (some u2) => (reconstruct_path prev m' u2).map (fun p0 => p0 ++ [v]))
          = some p
        rw [hp]
        dsimp only
        rw [h3]
        rw [← hpeq]
        rfl

theorem recon_eval {g : Graph} {start : Node} {S : List Node} {dist : DistTable}
    {prev : PrevTable} (I : DInv g start S dist prev []) :
    ∀ (n : ℕ) (v : Node) (r : ℚ) (rend : Node),
      alookup dist v = some ((r : ℚ) : WithTop ℚ) →
      iterPrev prev n v = some rend → alookup prev rend = some none →
      ∃ rest, reconstruct_path prev (n + 1) v = some (start :: rest) ∧
        costFrom g start rest = some r ∧ endOf start rest = v := by
  intro n
  induction n with
  | zero =>
    intro v r rend hv hiter hterm
    have hvr : v = rend := Option.some.inj hiter
    have hvstart : v = start := by
      by_contra hne
      obtain ⟨u, hu⟩ := I.prev_reached v r hv hne
      rw [hvr, hterm] at hu
      exact Option.noConfusion (Option.some.inj hu)
    have hr0 : r = 0 := by
      rw [hvstart, I.dist_start] at hv
      exact (WithTop.coe_inj.mp (Option.some.inj hv)).symm
    refine ⟨[], ?_, ?_, ?_⟩
    · have hlink : alookup prev v = some none := by
        rw [hvr]
        exact hterm
      rw [hvstart] at hlink
      show reconstruct_path prev 1 v = some [start]
      rw [hvstart]
      simp [reconstruct_path, hlink]
    · rw [hr0]
      rfl
    · rw [hvstart]
      rfl
  | succ n ih =>
    intro v r rend hv hiter hterm
    rcases hp : alookup prev v with _ | p
    · exfalso
      simp [iterPrev, hp] at hiter
    · rcases p with _ | u
      · exfalso
        simp [iterPrev, hp] at hiter
      · have hiter2 : iterPrev prev n u = some rend := by
          rw [iterPrev_succ_of_link hp] at hiter
          exact hiter
        obtain ⟨w, dv', du', hw, hdv, hdu, hle⟩ := I.prev_edge v u hp
        have hdvr : dv' = r := by
          rw [hv] at hdv
          exact WithTop.coe_inj.mp (Option.some.inj hdv).symm
        obtain ⟨rest_u, hrec_u, hcost_u, hend_u⟩ := ih u du' rend hdu hiter2 hterm
        have hend2 : endOf start (rest_u ++ [v]) = v := by
          rw [endOf_append, hend_u]
          rfl
        have hpath : costFrom g start (rest_u ++ [v]) = some (du' + w) :=
          costFrom_snoc hcost_u (by rw [hend_u]; exact hw)
        have hopt : r ≤ du' + w := by
          rcases I.frontier (rest_u ++ [v]) (du' + w) hpath with
            ⟨dvv, hdvv, hlev⟩ | ⟨_, _, _, _, _, _, _, hmem, _⟩
          · rw [hend2, hv] at hdvv
            have h3 : ((r : ℚ) : WithTop ℚ) = dvv := Option.some.inj hdvv
            rw [← h3, WithTop.coe_le_coe] at hlev
            exact hlev
          · exact absurd hmem (List.not_mem_nil _)
        have hge : du' + w ≤ r := by
          rw [hdvr] at hle
          exact hle
        have hreq : r = du' + w := le_antisymm hopt hge
        refine ⟨rest_u ++ [v], ?_, ?_, hend2⟩
        · show (match alookup prev v with
            | Option.none => Option.none
            | some Option.none => some [v]
            | some (some u2) =>
              (reconstruct_path prev (n + 1) u2).map (fun p0 => p0 ++ [v]))
            = some (start :: (rest_u ++ [v]))
          rw [hp]
          dsimp only
          rw [hrec_u]
          show some ((start :: rest_u) ++ [v]) = some (start :: (rest_u ++ [v]))
          rw [List.cons_append]
        · rw [hpath, hreq]

/-- C10: for every finite graph with non-negative edge weights whose edge
targets are all keys of the graph, and every source in the graph, `dijkstra`
terminates: the lazy-deletion loop reaches the empty-queue exit within the
explicit fuel bound `dijkstraFuel g` (one plus the total number of edges),
because each fresh pop settles a node and its relaxation pushes at most one
queue entry per outgoing edge, while stale pops only shrink the queue. -/
theorem c10_dijkstra_terminates (g : Graph) (start : Node)
    (hnn : NonnegG g) (hwf : WFG g) (hstart : start ∈ akeys g) :
    ∃ dist prev, dijkstra g start (dijkstraFuel g) = DOut.done dist prev := by
  obtain ⟨dist, prev, S, hdone, _⟩ := dijkstra_fuel_done hnn hwf hstart
  exact ⟨dist, prev, hdone⟩

theorem c10_witness :
    ∃ dist prev,
      dijkstra exampleGraph "A" (dijkstraFuel exampleGraph) = DOut.done dist prev :=
  c10_dijkstra_terminates exampleGraph "A" (by decide) (by decide) (by decide)

/-- C5: for every graph with non-negative edge weights and every source that is
a key of the graph, a completed `dijkstra` run returns `distance[source] = 0`
and `predecessor[source] = none`. -/
theorem c5_source_distance_zero (g : Graph) (start : Node) (fuel : ℕ)
    (dist : DistTable) (prev : PrevTable)
    (hnn : NonnegG g) (hwf : WFG g) (hstart : start ∈ akeys g)
    (hrun : dijkstra g start fuel = DOut.done dist prev) :
    alookup dist start = some ((0 : ℚ) : WithTop ℚ) ∧
      alookup prev start = some none := by
  obtain ⟨S, I⟩ := dijkstra_done_dinv hnn hwf hstart hrun
  exact ⟨I.dist_start, I.prev_start⟩

theorem c5_witness :
    alookup exampleDist "A" = some ((0 : ℚ) : WithTop ℚ) ∧
      alookup examplePrev "A" = some none := by
  have hrun : dijkstra exampleGraph "A" 10 = DOut.done exampleDist examplePrev := by
    with_unfolding_all decide
  exact c5_source_distance_zero exampleGraph "A" 10 exampleDist examplePrev
    (by decide) (by decide) (by decide) hrun

/-- C1: for every graph with non-negative edge weights and every source that is
a key of the graph, when `dijkstra` terminates the recorded distance of each
node `v` is the true minimum total weight over all directed paths from the
source to `v`: if it is the infinity sentinel then no directed path from the
source reaches `v`, and if it is a finite value `r` then some path from the
source to `v` has total weight exactly `r` and every path from the source to
`v` has total weight at least `r`. -/
theorem c1_distances_optimal (g : Graph) (start : Node) (fuel : ℕ)
    (dist : DistTable) (prev : PrevTable) (v : Node) (dv : WithTop ℚ)
    (hnn : NonnegG g) (hwf : WFG g) (hstart : start ∈ akeys g)
    (hrun : dijkstra g start fuel = DOut.done dist prev)
    (hv : alookup dist v = some dv) :
    (dv = ⊤ → ∀ (rest : List Node) (c : ℚ), costFrom g start rest = some c →
      endOf start rest ≠ v) ∧
    ∀ r : ℚ, dv = ((r : ℚ) : WithTop ℚ) →
      (∃ rest, costFrom g start rest = some r ∧ endOf start rest = v) ∧
      ∀ (rest : List Node) (c : ℚ), costFrom g start rest = some c →
        endOf start rest = v → r ≤ c := by
  obtain ⟨S, I⟩ := dijkstra_done_dinv hnn hwf hstart hrun
  constructor
  · intro htop rest c hc hend
    rcases I.frontier rest c hc with ⟨dv', hdv', hle⟩ | ⟨_, _, _, _, _, _, _, hmem, _⟩
    · rw [hend, hv] at hdv'
      have h2 : dv = dv' := Option.some.inj hdv'
      rw [htop] at h2
      rw [← h2] at hle
      exact WithTop.coe_ne_top ((top_le_iff.mp hle))
    · exact absurd hmem (List.not_mem_nil _)
  · intro r hr
    constructor
    · exact I.reach v r (by rw [← hr]; exact hv)
    · intro rest c hc hend
      rcases I.frontier rest c hc with ⟨dv', hdv', hle⟩ | ⟨_, _, _, _, _, _, _, hmem, _⟩
      · rw [hend, hv] at hdv'
        have h2 : dv = dv' := Option.some.inj hdv'
        rw [← h2, hr, WithTop.coe_le_coe] at hle
        exact hle
      · exact absurd hmem (List.not_mem_nil _)

theorem c1_witness :
    ((((2 : ℚ) : WithTop ℚ) = ⊤ → ∀ (rest : List Node) (c : ℚ),
        costFrom exampleGraph "A" rest = some c → endOf "A" rest ≠ "C") ∧
      ∀ r : ℚ, (((2 : ℚ) : WithTop ℚ)) = ((r : ℚ) : WithTop ℚ) →
        (∃ rest, costFrom exampleGraph "A" rest = some r ∧ endOf "A" rest = "C") ∧
        ∀ (rest : List Node) (c : ℚ), costFrom exampleGraph "A" rest = some c →
          endOf "A" rest = "C" → r ≤ c) := by
  have hrun : dijkstra exampleGraph "A" 10 = DOut.done exampleDist examplePrev := by
    with_unfolding_all decide
  exact c1_distances_optimal exampleGraph "A" 10 exampleDist examplePrev "C"
    (((2 : ℚ) : WithTop ℚ)) (by decide) (by decide) (by decide) hrun (by decide)

/-- C2: for every graph with non-negative edge weights, every source in the
graph, and every node `v` whose recorded distance after a completed `dijkstra`
run is a finite value `r`, the backward walk of `reconstruct_path` over the
returned predecessor table (with step allowance `|nodes|`, which always
suffices) yields a sequence that starts at the source, ends at `v`, follows
edges of the graph, and whose sum of consecutive edge weights is exactly `r`. -/
theorem c2_path_reconstruction (g : Graph) (start : Node) (fuel : ℕ)
    (dist : DistTable) (prev : PrevTable) (v : Node) (r : ℚ)
    (hnn : NonnegG g) (hwf : WFG g) (hstart : start ∈ akeys g)
    (hrun : dijkstra g start fuel = DOut.done dist prev)
    (hv : alookup dist v = some ((r : ℚ) : WithTop ℚ)) :
    ∃ rest, reconstruct_path prev ((akeys g).length) v = some (start :: rest) ∧
      costFrom g start rest = some r ∧ endOf start rest = v := by
  obtain ⟨S, I⟩ := dijkstra_done_dinv hnn hwf hstart hrun
  have hcl : ∀ a b, alookup prev a = some (some b) → b ∈ akeys prev := by
    intro a b h
    obtain ⟨w, dv', du', _, _, hdu, _⟩ := I.prev_edge a b h
    rw [I.keys_prev, ← I.keys_dist]
    exact (mem_akeys_iff_isSome _ _).mpr ⟨_, hdu⟩
  have hvprev : v ∈ akeys prev := by
    rw [I.keys_prev, ← I.keys_dist]
    exact (mem_akeys_iff_isSome _ _).mpr ⟨_, hv⟩
  obtain ⟨n, rend, hbound, hiter, hterm⟩ := chain_to_sentinel I.no_cycle hcl hvprev
  obtain ⟨rest, hrec, hcost, hend⟩ := recon_eval I n v r rend hv hiter hterm
  have hlen : n + 1 ≤ (akeys g).length := by
    rw [← I.keys_prev]
    exact hbound
  exact ⟨rest, recon_mono (n + 1) ((akeys g).length) hlen v _ hrec, hcost, hend⟩

theorem c2_witness :
    ∃ rest,
      reconstruct_path examplePrev ((akeys exampleGraph).length) "C" =
        some ("A" :: rest) ∧
      costFrom exampleGraph "A" rest = some 2 ∧ endOf "A" rest = "C" := by
  have hrun : dijkstra exampleGraph "A" 10 = DOut.done exampleDist examplePrev := by
    with_unfolding_all decide
  exact c2_path_reconstruction exampleGraph "A" 10 exampleDist examplePrev "C" 2
    (by decide) (by decide) (by decide) hrun (by decide)
